import Mathlib

/-!
Verification development for the NodeModal editing core of jsoncrack:
snapshot projection (`normalizeNodeData`), path-addressed patching
(`updateJsonAtPath`), commit (`handleSave` in its field-mode and
whole-value variants) and post-commit node resynchronization.

A document is represented by its format-preserving parse: a concrete
syntax tree (`CVal`) that records every whitespace run of the source
text, so that `printVal` reproduces the document text byte for byte.
The spec itself mandates that the patcher work on such a
format-preserving parse, and the claims about document text `D` are
stated over `printVal` of the tree.  JSON numbers are modelled as
integers (fractional literals are outside the modelled fragment) and
documents with duplicate object keys use first-match lookup
consistently throughout.
-/

namespace JsonCrack

/-- One path segment: a string key or an integer array index
(the source path type is `(string | number)[]`). -/
inductive Seg where
  | key : String → Seg
  | idx : Nat → Seg
deriving DecidableEq, Repr

mutual
/-- Logical JSON values (the result of a plain parse, as consumed by
`JSON.parse` / produced for `JSON.stringify`).  Arrays and objects are
given by their own spine types so that mutual structural recursion and
induction stay simple. -/
inductive JVal where
  | null : JVal
  | bool : Bool → JVal
  | num : Int → JVal
  | str : String → JVal
  | arr : JArr → JVal
  | obj : JObj → JVal
deriving DecidableEq, Repr

inductive JArr where
  | nil : JArr
  | cons : JVal → JArr → JArr
deriving DecidableEq, Repr

inductive JObj where
  | nil : JObj
  | cons : String → JVal → JObj → JObj
deriving DecidableEq, Repr
end

mutual
/-- Format-preserving concrete syntax tree of a JSON document.  Scalar
leaves hold their value; containers record the whitespace runs around
every element, so printing reproduces the original text exactly.
An array item `(pre, v, post)` prints as `pre ++ v ++ post`, items
separated by a comma; `ws` is the run before the closing bracket.
An object field `(pre, key, mid, v, post)` prints as
`pre ++ "key" ++ ":" ++ mid ++ v ++ post`. -/
inductive CVal where
  | cnull : CVal
  | cbool : Bool → CVal
  | cnum : Int → CVal
  | cstr : String → CVal
  | carr : CItems → String → CVal
  | cobj : CFields → String → CVal
deriving DecidableEq, Repr

inductive CItems where
  | nil : CItems
  | cons : String → CVal → String → CItems → CItems
deriving DecidableEq, Repr

inductive CFields where
  | nil : CFields
  | cons : String → String → String → CVal → String → CFields → CFields
deriving DecidableEq, Repr
end

/-- Escape one character the way `JSON.stringify` does (the modelled
fragment: quote, backslash and the common control characters). -/
def escChar (c : Char) : String :=
  if c = '"' then "\\\""
  else if c = '\\' then "\\\\"
  else if c = '\n' then "\\n"
  else if c = '\t' then "\\t"
  else if c = '\r' then "\\r"
  else String.singleton c

/-- String-body escaping as performed by `JSON.stringify`. -/
def escape (s : String) : String :=
  s.data.foldl (fun acc c => acc ++ escChar c) ""

/-- A quoted JSON string literal. -/
def quoteStr (s : String) : String :=
  "\"" ++ escape s ++ "\""

/-- Print the text of one scalar token. -/
def scalarText : CVal → String
  | .cnull => "null"
  | .cbool true => "true"
  | .cbool false => "false"
  | .cnum n => toString n
  | .cstr s => quoteStr s
  | _ => ""

mutual
/-- Print a concrete syntax tree back to document text.  For trees
obtained by parsing a document this is the identity on the original
bytes: every whitespace run is stored in the tree. -/
def printVal : CVal → String
  | .cnull => "null"
  | .cbool true => "true"
  | .cbool false => "false"
  | .cnum n => toString n
  | .cstr s => quoteStr s
  | .carr items ws => "[" ++ printItems items ++ ws ++ "]"
  | .cobj fields ws => "\x7b" ++ printFields fields ++ ws ++ "\x7d"

def printItems : CItems → String
  | .nil => ""
  | .cons pre v post rest => pre ++ printVal v ++ post ++ sepItems rest

/-- Second and later array items, each preceded by its comma. -/
def sepItems : CItems → String
  | .nil => ""
  | .cons pre v post rest => "," ++ pre ++ printVal v ++ post ++ sepItems rest

def printFields : CFields → String
  | .nil => ""
  | .cons pre k mid v post rest =>
      pre ++ quoteStr k ++ ":" ++ mid ++ printVal v ++ post ++ sepFields rest

/-- Second and later object members, each preceded by its comma. -/
def sepFields : CFields → String
  | .nil => ""
  | .cons pre k mid v post rest =>
      "," ++ pre ++ quoteStr k ++ ":" ++ mid ++ printVal v ++ post ++ sepFields rest
end

mutual
/-- Forget the formatting: the logical value of a concrete tree (what
`JSON.parse` returns on the printed text). -/
def stripV : CVal → JVal
  | .cnull => .null
  | .cbool b => .bool b
  | .cnum n => .num n
  | .cstr s => .str s
  | .carr items _ => .arr (stripItems items)
  | .cobj fields _ => .obj (stripFields fields)

def stripItems : CItems → JArr
  | .nil => .nil
  | .cons _ v _ rest => .cons (stripV v) (stripItems rest)

def stripFields : CFields → JObj
  | .nil => .nil
  | .cons _ k _ v _ rest => .cons k (stripV v) (stripFields rest)
end

/-- `n` spaces. -/
def indentStr (n : Nat) : String :=
  String.mk (List.replicate n ' ')

mutual
/-- The concrete tree produced by `JSON.stringify(v, null, 2)` for a
value placed at nesting depth `d`: children of a non-empty container
start on a new line indented by `2 * (d + 1)` spaces, the closing
bracket on a new line indented by `2 * d` spaces, and `": "` after each
object key.  Empty containers print as `[]` / `{}`. -/
def toCST (d : Nat) : JVal → CVal
  | .null => .cnull
  | .bool b => .cbool b
  | .num n => .cnum n
  | .str s => .cstr s
  | .arr .nil => .carr .nil ""
  | .arr (.cons x xs) =>
      .carr (toCSTArr d (.cons x xs)) ("\n" ++ indentStr (2 * d))
  | .obj .nil => .cobj .nil ""
  | .obj (.cons k v fs) =>
      .cobj (toCSTObj d (.cons k v fs)) ("\n" ++ indentStr (2 * d))

def toCSTArr (d : Nat) : JArr → CItems
  | .nil => .nil
  | .cons x xs =>
      .cons ("\n" ++ indentStr (2 * (d + 1))) (toCST (d + 1) x) "" (toCSTArr d xs)

def toCSTObj (d : Nat) : JObj → CFields
  | .nil => .nil
  | .cons k v fs =>
      .cons ("\n" ++ indentStr (2 * (d + 1))) k " " (toCST (d + 1) v) ""
        (toCSTObj d fs)
end

/-- Model of `JSON.stringify(v, null, 2)`: the canonical pretty-printed
serialization with the fixed indent width of two spaces. -/
def pretty (v : JVal) : String :=
  printVal (toCST 0 v)

/-- First-match lookup in an object spine. -/
def lookupJ : JObj → String → Option JVal
  | .nil, _ => none
  | .cons k v rest, q => if k = q then some v else lookupJ rest q

/-- Indexing into an array spine. -/
def getJ : JArr → Nat → Option JVal
  | .nil, _ => none
  | .cons v _, 0 => some v
  | .cons _ rest, n + 1 => getJ rest n

/-- Resolve a path against a logical value: string keys address object
members, integer indices address array elements; any mismatch fails. -/
def resolveJ : JVal → List Seg → Option JVal
  | v, [] => some v
  | .obj fs, .key k :: rest =>
      match lookupJ fs k with
      | some w => resolveJ w rest
      | none => none
  | .arr xs, .idx i :: rest =>
      match getJ xs i with
      | some w => resolveJ w rest
      | none => none
  | _, _ => none

/-- First field of an object tree carrying the given key. -/
def findC : CFields → String → Option CVal
  | .nil, _ => none
  | .cons _ k _ v _ rest, q => if k = q then some v else findC rest q

/-- The `i`-th item of an array tree. -/
def getC : CItems → Nat → Option CVal
  | .nil, _ => none
  | .cons _ v _ _, 0 => some v
  | .cons _ _ _ rest, n + 1 => getC rest n

/-- Navigate a concrete tree along a path, yielding the addressed
subtree (whose printed text is the byte region of that value in the
document). -/
def navC : CVal → List Seg → Option CVal
  | c, [] => some c
  | .cobj fs _, .key k :: rest =>
      match findC fs k with
      | some w => navC w rest
      | none => none
  | .carr its _, .idx i :: rest =>
      match getC its i with
      | some w => navC w rest
      | none => none
  | _, _ => none

/-- The printed bytes of the value addressed by a path. -/
def subtextAt (c : CVal) (p : List Seg) : Option String :=
  Option.map printVal (navC c p)

/-- Replace the value of the first field carrying the given key by the
result of `f` on it; fail when the key is absent or `f` fails.  The
field's own whitespace slot (`pre`, `mid`, `post`) and every other
field are kept untouched. -/
def patchFieldsWith (f : CVal → Option CVal) : CFields → String → Option CFields
  | .nil, _ => none
  | .cons pre k mid w post rest, q =>
      if k = q then
        match f w with
        | some w2 => some (.cons pre k mid w2 post rest)
        | none => none
      else
        match patchFieldsWith f rest q with
        | some rest2 => some (.cons pre k mid w post rest2)
        | none => none

/-- Replace the `i`-th array item by the result of `f` on it; fail when
the index is out of range or `f` fails. -/
def patchItemsWith (f : CVal → Option CVal) : CItems → Nat → Option CItems
  | .nil, _ => none
  | .cons pre w post rest, 0 =>
      match f w with
      | some w2 => some (.cons pre w2 post rest)
      | none => none
  | .cons pre w post rest, n + 1 =>
      match patchItemsWith f rest n with
      | some rest2 => some (.cons pre w post rest2)
      | none => none

/-- Modelled from the spec: the structural edit step performed by
jsonc-parser's `modify`/`applyEdits`, which is a library dependency
whose code is not part of this repository.  Per the spec, the path is
resolved against the format-preserving parse, and only the addressed
value is replaced — its replacement is the canonical serialization of
the new value — while every byte around it (indentation, key order,
unrelated whitespace) is kept, because the surrounding tree and all of
its stored whitespace runs are untouched.  An unresolvable path yields
`none` (the failure policy of the spec: the caller returns the
original text unchanged). -/
def patchP : List Seg → JVal → CVal → Option CVal
  | [], v, _ => some (toCST 0 v)
  | .key k :: rest, v, c =>
      match c with
      | .cobj fs ws =>
          match patchFieldsWith (patchP rest v) fs k with
          | some fs2 => some (.cobj fs2 ws)
          | none => none
      | _ => none
  | .idx i :: rest, v, c =>
      match c with
      | .carr its ws =>
          match patchItemsWith (patchP rest v) its i with
          | some its2 => some (.carr its2 ws)
          | none => none
      | _ => none

/-- The patch step in the argument order of the source function. -/
def patchC (c : CVal) (p : List Seg) (v : JVal) : Option CVal :=
  patchP p v c

/-- Translation of `updateJsonAtPath` from
`src/features/modals/NodeModal/index.tsx`: an empty (or absent) path
replaces the whole document by `JSON.stringify(newValue, null, 2)`;
otherwise the jsonc-parser edit is applied, and any failure of that
step is caught, returning the original text unchanged. -/
def updateJsonAtPath (doc : CVal) (path : List Seg) (newValue : JVal) : String :=
  if path = [] then pretty newValue
  else
    match patchC doc path newValue with
    | some c2 => printVal c2
    | none => printVal doc

/-- Store-level form of `updateJsonAtPath`, returning the tree whose
printed text is the function's result. -/
def updateJsonAtPathC (doc : CVal) (path : List Seg) (newValue : JVal) : CVal :=
  if path = [] then toCST 0 newValue
  else
    match patchC doc path newValue with
    | some c2 => c2
    | none => doc

/-- JSON whitespace. -/
def isWsChar (c : Char) : Bool :=
  c = ' ' || c = '\n' || c = '\t' || c = '\r'

/-- Drop leading JSON whitespace. -/
def dropWs : List Char → List Char
  | [] => []
  | c :: rest => if isWsChar c then dropWs rest else c :: rest

/-- Leading decimal digits of the input, and the remainder. -/
def takeDigits : List Char → List Char × List Char
  | [] => ([], [])
  | c :: rest =>
      if c.isDigit then
        let p := takeDigits rest
        (c :: p.1, p.2)
      else ([], c :: rest)

/-- Digit list to number. -/
def digitsToNat (ds : List Char) : Nat :=
  ds.foldl (fun a c => a * 10 + (c.toNat - 48)) 0

/-- One JSON integer token: optional minus, then `0` or a nonzero digit
followed by digits; a leading zero before further digits is rejected,
as are fractional and exponent forms (JSON numbers are modelled as
integers). -/
def parseIntTok (cs : List Char) : Option (Int × List Char) :=
  let p : Bool × List Char :=
    match cs with
    | '-' :: r => (true, r)
    | _ => (false, cs)
  match takeDigits p.2 with
  | ([], _) => none
  | (ds, r) =>
      if 1 < ds.length && ds.headI = '0' then none
      else
        match r with
        | '.' :: _ => none
        | 'e' :: _ => none
        | 'E' :: _ => none
        | _ =>
            let n : Int := Int.ofNat (digitsToNat ds)
            some (if p.1 then -n else n, r)

/-- Unescape one character after a backslash (the modelled fragment of
JSON string escapes; `\u` sequences are outside it). -/
def unescChar (c : Char) : Option Char :=
  if c = '"' then some '"'
  else if c = '\\' then some '\\'
  else if c = '/' then some '/'
  else if c = 'n' then some '\n'
  else if c = 't' then some '\t'
  else if c = 'r' then some '\r'
  else if c = 'b' then some (Char.ofNat 8)
  else if c = 'f' then some (Char.ofNat 12)
  else none

/-- Body of a JSON string literal, after the opening quote; returns the
decoded string and the input past the closing quote. -/
def parseStrBody : List Char → Option (String × List Char)
  | [] => none
  | '"' :: rest => some ("", rest)
  | '\\' :: e :: rest =>
      match unescChar e, parseStrBody rest with
      | some c, some p => some (String.singleton c ++ p.1, p.2)
      | _, _ => none
  | c :: rest =>
      if c = '\\' then none
      else
        match parseStrBody rest with
        | some p => some (String.singleton c ++ p.1, p.2)
        | none => none

/-- Match an expected literal character sequence. -/
def stripToken : List Char → List Char → Option (List Char)
  | [], cs => some cs
  | e :: es, c :: cs => if c = e then stripToken es cs else none
  | _ :: _, [] => none

mutual
/-- Recursive-descent reader for one JSON value (fuelled; the fuel is
always sufficient for inputs of the given length, since every value
consumes at least one character). -/
def pVal : Nat → List Char → Option (JVal × List Char)
  | 0, _ => none
  | fuel + 1, cs =>
      match dropWs cs with
      | [] => none
      | c :: rest =>
          if c = 'n' then
            (stripToken ['u', 'l', 'l'] rest).map (fun r => (.null, r))
          else if c = 't' then
            (stripToken ['r', 'u', 'e'] rest).map (fun r => (.bool true, r))
          else if c = 'f' then
            (stripToken ['a', 'l', 's', 'e'] rest).map (fun r => (.bool false, r))
          else if c = '"' then
            (parseStrBody rest).map (fun p => (.str p.1, p.2))
          else if c = '[' then
            match dropWs rest with
            | ']' :: r => some (.arr .nil, r)
            | _ =>
                match pArr fuel rest with
                | some p => some (.arr p.1, p.2)
                | none => none
          else if c = '\x7b' then
            match dropWs rest with
            | '\x7d' :: r => some (.obj .nil, r)
            | _ =>
                match pObj fuel rest with
                | some p => some (.obj p.1, p.2)
                | none => none
          else
            (parseIntTok (c :: rest)).map (fun p => (.num p.1, p.2))

/-- Comma-separated array items up to and including the closing
bracket. -/
def pArr : Nat → List Char → Option (JArr × List Char)
  | 0, _ => none
  | fuel + 1, cs =>
      match pVal fuel cs with
      | none => none
      | some (v, r) =>
          match dropWs r with
          | ',' :: r2 =>
              match pArr fuel r2 with
              | some p => some (.cons v p.1, p.2)
              | none => none
          | ']' :: r2 => some (.cons v .nil, r2)
          | _ => none

/-- Comma-separated object members up to and including the closing
brace. -/
def pObj : Nat → List Char → Option (JObj × List Char)
  | 0, _ => none
  | fuel + 1, cs =>
      match dropWs cs with
      | '"' :: r =>
          match parseStrBody r with
          | none => none
          | some (k, r2) =>
              match dropWs r2 with
              | ':' :: r3 =>
                  match pVal fuel r3 with
                  | none => none
                  | some (v, r4) =>
                      match dropWs r4 with
                      | ',' :: r5 =>
                          match pObj fuel r5 with
                          | some p => some (.cons k v p.1, p.2)
                          | none => none
                      | '\x7d' :: r5 => some (.cons k v .nil, r5)
                      | _ => none
              | _ => none
      | _ => none
end

/-- Model of `JSON.parse` on the modelled fragment: scalars, arrays and
objects with integer numbers; fractional or exponent literals and `\u`
escapes are outside the fragment and read as failures. -/
def jsonParse (s : String) : Option JVal :=
  match pVal (s.length + 1) s.data with
  | some (v, r) => if dropWs r = [] then some v else none
  | none => none

/-- The lenient field-mode value reader of `handleSave`
(`src/features/modals/NodeModal/index.tsx`, lines 160-167): try
`JSON.parse` on the raw text, and on failure keep the text as a
literal string. -/
def fieldParse (raw : String) : JVal :=
  match jsonParse raw with
  | some v => v
  | none => .str raw

/-- Type tag of a node field row (`NodeData["text"]` rows). -/
inductive RType where
  | tnull : RType
  | tbool : RType
  | tnum : RType
  | tstr : RType
  | tobj : RType
  | tarr : RType
deriving DecidableEq, Repr

/-- One field row of a node: optional key, scalar value (composite rows
carry their type tag and are never surfaced as editable), type tag. -/
structure Row where
  key : Option String
  value : JVal
  rtype : RType
deriving DecidableEq, Repr

/-- JavaScript truthiness of `row.key`: absent (`null`/`undefined`) and
the empty string are falsy. -/
def keyTruthy : Option String → Bool
  | none => false
  | some s => !s.isEmpty

/-- Whether the row's type tag is `"array"` or `"object"`. -/
def isCompositeT : RType → Bool
  | .tobj => true
  | .tarr => true
  | _ => false

mutual
/-- JavaScript string coercion `String(v)` / template interpolation on
the values that reach it in this component (scalars; the composite
cases follow `Array.prototype.toString` and `Object` loosely and are
never produced by the scalar-only row filters). -/
def jsTemplate : JVal → String
  | .null => "null"
  | .bool true => "true"
  | .bool false => "false"
  | .num n => toString n
  | .str s => s
  | .arr xs => jsTemplateArr xs
  | .obj _ => "[object Object]"

def jsTemplateArr : JArr → String
  | .nil => ""
  | .cons v .nil => jsTemplate v
  | .cons v (.cons a b) => jsTemplate v ++ "," ++ jsTemplateArr (.cons a b)
end

/-- `String(value ?? "")`: `null` (and `undefined`) give the empty
string, every other value its string coercion. -/
def jsStringOrEmpty (v : JVal) : String :=
  match v with
  | .null => ""
  | _ => jsTemplate v

/-- Lookup in a string record (JavaScript objects hold one binding per
key, so first match is the binding). -/
def lookupStr : List (String × String) → String → Option String
  | [], _ => none
  | (k, v) :: rest, q => if k = q then some v else lookupStr rest q

/-- JavaScript record assignment `rec[k] = v`: replace the existing
binding in place, else append. -/
def insertStr : List (String × String) → String → String → List (String × String)
  | [], k, v => [(k, v)]
  | (k0, v0) :: rest, k, v =>
      if k0 = k then (k0, v) :: rest else (k0, v0) :: insertStr rest k v

/-- JavaScript object assignment `obj[k] = v` on a logical object. -/
def insertJS : JObj → String → JVal → JObj
  | .nil, k, v => .cons k v .nil
  | .cons k0 v0 rest, k, v =>
      if k0 = k then .cons k0 v rest else .cons k0 v0 (insertJS rest k v)

/-- The object built by the `forEach` loop of `normalizeNodeData`:
skip rows whose type tag is `"array"` or `"object"`, then bind the
row's key to its value when the key is truthy. -/
def buildObjJS (rows : List Row) : JObj :=
  rows.foldl
    (fun acc r =>
      if isCompositeT r.rtype then acc
      else if keyTruthy r.key then insertJS acc (r.key.getD "") r.value
      else acc)
    .nil

/-- The single-value-mode test used throughout the component:
`rows.length === 1 && !rows[0].key`. -/
def isSingleUnkeyed (rows : List Row) : Bool :=
  match rows with
  | [r] => !keyTruthy r.key
  | _ => false

/-- Translation of `normalizeNodeData` from
`src/features/modals/NodeModal/index.tsx` (lines 23-39): empty or
absent rows give `"{}"`; a single row with no key gives the stringified
value; otherwise the stringified object of the scalar keyed rows. -/
def normalizeNodeData : List Row → String
  | [] => "\x7b\x7d"
  | [r] =>
      if !keyTruthy r.key then pretty r.value
      else pretty (.obj (buildObjJS [r]))
  | rows => pretty (.obj (buildObjJS rows))

/-- Translation of `normalizeNodeData` from the whole-value variant of
the component (`src/unnamed/part_000`, lines 9-20): identical except
that the single unkeyed value is rendered by template interpolation
rather than `JSON.stringify`. -/
def normalizeNodeData000 : List Row → String
  | [] => "\x7b\x7d"
  | [r] =>
      if !keyTruthy r.key then jsTemplate r.value
      else pretty (.obj (buildObjJS [r]))
  | rows => pretty (.obj (buildObjJS rows))

/-- Translation of the field-initialization effect
(`src/features/modals/NodeModal/index.tsx`, lines 77-97, duplicated in
`handleCancel`): single-value nodes initialize the working record to
`{"value": String(value ?? "")}`; otherwise every scalar row with a
truthy key is bound to the string coercion of its value. -/
def initFields (rows : List Row) : List (String × String) :=
  if isSingleUnkeyed rows then
    match rows with
    | r :: _ => [("value", jsStringOrEmpty r.value)]
    | [] => []
  else
    rows.foldl
      (fun acc r =>
        if keyTruthy r.key && !isCompositeT r.rtype then
          insertStr acc (r.key.getD "") (jsStringOrEmpty r.value)
        else acc)
      []

/-- One step of the JavaScript property access `currentValue[segment]`:
reading a property of `undefined` or `null` throws; objects answer
string keys (and numeric keys by string coercion), arrays answer
indices; every other access yields `undefined` (`none`). -/
def jsAccess : Option JVal → Seg → Except Unit (Option JVal)
  | none, _ => .error ()
  | some .null, _ => .error ()
  | some (.obj fs), .key k => .ok (lookupJ fs k)
  | some (.obj fs), .idx n => .ok (lookupJ fs (toString n))
  | some (.arr xs), .idx n => .ok (getJ xs n)
  | some (.arr _), .key _ => .ok none
  | some _, _ => .ok none

/-- The navigation loop of `handleSave`
(`for (const segment of path) currentValue = currentValue[segment]`). -/
def jsNav : Option JVal → List Seg → Except Unit (Option JVal)
  | v, [] => .ok v
  | v, s :: rest =>
      match jsAccess v s with
      | .ok w => jsNav w rest
      | .error e => .error e

/-- Array spread contributes index-keyed bindings. -/
def idxKeys : Nat → JArr → JObj
  | _, .nil => .nil
  | i, .cons v rest => .cons (toString i) v (idxKeys (i + 1) rest)

/-- The object-spread `{ ...currentValue }`: objects keep their
bindings, arrays become index-keyed objects, anything else (including
`undefined`) gives the empty object. -/
def spreadToObj : Option JVal → JObj
  | some (.obj fs) => fs
  | some (.arr xs) => idxKeys 0 xs
  | _ => .nil

/-- The field-merge loop of `handleSave`: assign each edited entry into
the copied object, parsing the raw text leniently. -/
def mergeFields (base : JObj) (edits : List (String × String)) : JObj :=
  edits.foldl (fun acc kv => insertJS acc kv.1 (fieldParse kv.2)) base

/-- The node data consumed by the field-mode editor: captured path and
field rows. -/
structure NodeD where
  path : List Seg
  text : List Row
deriving DecidableEq, Repr

/-- The edit-session state relevant to a commit: the document (as its
format-preserving parse), the selected node, the working field record
and the editing flag. -/
structure EditState where
  doc : CVal
  node : NodeD
  editedFields : List (String × String)
  isEditing : Bool
deriving DecidableEq, Repr

/-- Outcome signal of a commit: the success toast or the error toast. -/
inductive SaveResult where
  | saved : SaveResult
  | reportedError : SaveResult
deriving DecidableEq, Repr

/-- The value-construction phase of `handleSave`
(`src/features/modals/NodeModal/index.tsx`, lines 132-168): single-value
nodes parse the edited text leniently; otherwise the value currently
live at the captured path is read back from the document (property
access into `null`/`undefined` throws), shallow-copied by spread, and
the edited entries are assigned over it. -/
def buildValue (doc : CVal) (node : NodeD) (edited : List (String × String)) :
    Except Unit JVal :=
  if isSingleUnkeyed node.text then
    .ok (fieldParse ((lookupStr edited "value").getD ""))
  else
    match jsNav (some (stripV doc)) node.path with
    | .error e => .error e
    | .ok cur => .ok (.obj (mergeFields (spreadToObj cur) edited))

/-- Translation of `handleSave`
(`src/features/modals/NodeModal/index.tsx`, lines 127-198): build the
new logical value, patch the document at the captured path and leave
editing mode; any exception in the build phase is caught, reports the
error, and performs no mutation at all. -/
def handleSave (st : EditState) : EditState × SaveResult :=
  match buildValue st.doc st.node st.editedFields with
  | .error _ => (st, .reportedError)
  | .ok v =>
      ({ st with
          doc := updateJsonAtPathC st.doc st.node.path v,
          isEditing := false },
        .saved)

/-- A node of the rebuilt graph: identity, optional path, field rows. -/
structure GNode where
  id : Nat
  path : Option (List Seg)
  text : List Row
deriving DecidableEq, Repr

/-- The path comparison of the resynchronization step:
`JSON.stringify(node.path) === JSON.stringify(path)` after the guard
`if (!node.path || !path) return false`.  Stringify equality of two
segment sequences is element-wise structural equality (numeric and
string segments serialize to disjoint token shapes). -/
def pathMatches (np : Option (List Seg)) (captured : Option (List Seg)) : Bool :=
  match np, captured with
  | some p1, some p2 => decide (p1 = p2)
  | _, _ => false

/-- Translation of the post-commit resynchronization
(`src/features/modals/NodeModal/index.tsx`, lines 183-193): find the
first rebuilt node whose path matches the captured one and select it;
when no node matches, `setSelectedNode` is not called, so the previous
selection stays in place. -/
def resyncSelect (nodes : List GNode) (captured : Option (List Seg))
    (prevSel : Option GNode) : Option GNode :=
  match nodes.find? (fun n => pathMatches n.path captured) with
  | some n => some n
  | none => prevSel

/-- State of the whole-value variant (`src/unnamed/part_000`). -/
structure WState where
  nodes : List GNode
  selected : Option GNode
  editValue : String
  isEditing : Bool
deriving DecidableEq, Repr

/-- Outcome of the whole-value `handleSave`: saved, rejected by the
validation alert, or skipped because no node is selected. -/
inductive Outcome000 where
  | saved : Outcome000
  | invalid : Outcome000
  | skipped : Outcome000
deriving DecidableEq, Repr

/-- Translation of `handleSave` from the whole-value variant
(`src/unnamed/part_000`, lines 47-77): the edited text is parsed
strictly as JSON purely for validation — failure alerts and changes
nothing — and on success the node's text is replaced by a single
string row holding the raw edited text, the node list is rewritten by
identity, and the node stays selected. -/
def handleSave000 (st : WState) : WState × Outcome000 :=
  match st.selected with
  | none => (st, .skipped)
  | some nd =>
      match jsonParse st.editValue with
      | none => (st, .invalid)
      | some _ =>
          let firstKey : Option String :=
            match nd.text with
            | [] => none
            | r :: _ => r.key
          let updatedNode : GNode :=
            { nd with text := [⟨firstKey, .str st.editValue, .tstr⟩] }
          ({ st with
              nodes := st.nodes.map (fun n => if n.id = nd.id then updatedNode else n),
              selected := some updatedNode,
              isEditing := false },
            .saved)

/-! ### Basic lemmas about the canonical serializer and the tree views -/

mutual
/-- The canonical tree of a value strips back to that value. -/
theorem stripV_toCST (d : Nat) : (v : JVal) → stripV (toCST d v) = v
  | .null => rfl
  | .bool _ => rfl
  | .num _ => rfl
  | .str _ => rfl
  | .arr .nil => rfl
  | .arr (.cons x xs) => by
      show JVal.arr (stripItems (toCSTArr d (.cons x xs))) = JVal.arr (.cons x xs)
      rw [stripItems_toCSTArr]
  | .obj .nil => rfl
  | .obj (.cons k v fs) => by
      show JVal.obj (stripFields (toCSTObj d (.cons k v fs))) = JVal.obj (.cons k v fs)
      rw [stripFields_toCSTObj]

theorem stripItems_toCSTArr (d : Nat) : (xs : JArr) → stripItems (toCSTArr d xs) = xs
  | .nil => rfl
  | .cons x xs => by
      show JArr.cons (stripV (toCST (d + 1) x)) (stripItems (toCSTArr d xs)) =
        JArr.cons x xs
      rw [stripV_toCST, stripItems_toCSTArr]

theorem stripFields_toCSTObj (d : Nat) : (fs : JObj) → stripFields (toCSTObj d fs) = fs
  | .nil => rfl
  | .cons k v fs => by
      show JObj.cons k (stripV (toCST (d + 1) v)) (stripFields (toCSTObj d fs)) =
        JObj.cons k v fs
      rw [stripV_toCST, stripFields_toCSTObj]
end

/-- Object lookup on the stripped tree is field search on the concrete
tree. -/
theorem lookupJ_stripFields :
    (fs : CFields) → (q : String) →
      lookupJ (stripFields fs) q = Option.map stripV (findC fs q)
  | .nil, _ => rfl
  | .cons _ k _ v _ rest, q => by
      show (if k = q then some (stripV v) else lookupJ (stripFields rest) q) =
        Option.map stripV (if k = q then some v else findC rest q)
      by_cases h : k = q
      · simp [h]
      · simp [h, lookupJ_stripFields rest q]

/-- Array indexing on the stripped tree is item indexing on the
concrete tree. -/
theorem getJ_stripItems :
    (its : CItems) → (i : Nat) →
      getJ (stripItems its) i = Option.map stripV (getC its i)
  | .nil, _ => rfl
  | .cons _ _ _ _, 0 => rfl
  | .cons _ _ _ rest, n + 1 => getJ_stripItems rest n

/-! ### C2: root-path patch is the canonical serialization -/

/-- C2: for every document and every new value, patching at the empty
(root) path returns exactly the canonical pretty-printed serialization
of the value with the fixed two-space indent (`JSON.stringify(v, null,
2)`), wholly replacing the document: the result does not depend on the
prior document text at all. -/
theorem updateJsonAtPath_root_canonical (doc : CVal) (v : JVal) :
    updateJsonAtPath doc [] v = pretty v ∧
    ∀ doc2 : CVal, updateJsonAtPath doc [] v = updateJsonAtPath doc2 [] v := by
  constructor
  · rfl
  · intro doc2
    rfl

/-! ### C9: totality of `updateJsonAtPath` and recovery on failure -/

/-- C9: `updateJsonAtPath` is total by type (it always returns a
string; the source's `try`/`catch` is the modelled `Option` on the
underlying edit step), and whenever the underlying `modify`/`applyEdits`
step fails, the original document text is returned unchanged. -/
theorem updateJsonAtPath_recovers_original (doc : CVal) (path : List Seg) (v : JVal)
    (h : patchC doc path v = none) :
    updateJsonAtPath doc path v = printVal doc := by
  cases path with
  | nil => simp [patchC, patchP] at h
  | cons s rest =>
      simp [updateJsonAtPath, h]

/-- Witness for C9 at a concrete input: patching below a scalar
document fails, and the document text `1` is returned unchanged. -/
theorem updateJsonAtPath_recovers_original_witness :
    patchC (CVal.cnum 1) [Seg.key "a"] JVal.null = none ∧
    updateJsonAtPath (CVal.cnum 1) [Seg.key "a"] JVal.null = printVal (CVal.cnum 1) :=
  ⟨rfl, updateJsonAtPath_recovers_original (CVal.cnum 1) [Seg.key "a"] JVal.null rfl⟩

/-! ### The patch step: what it touches and what it cannot touch -/

/-- A successful field patch happened at the first field with the
requested key, transformed exactly that field's value, and left every
other key's search result unchanged. -/
theorem patchFieldsWith_spec (f : CVal → Option CVal) :
    (fs fs2 : CFields) → (q : String) → patchFieldsWith f fs q = some fs2 →
      ∃ w w2, findC fs q = some w ∧ f w = some w2 ∧ findC fs2 q = some w2 ∧
        ∀ q2, q2 ≠ q → findC fs2 q2 = findC fs q2
  | .nil, fs2, q, h => by simp [patchFieldsWith] at h
  | .cons pre k mid w post rest, fs2, q, h => by
      by_cases hk : k = q
      · subst hk
        simp only [patchFieldsWith, if_pos rfl] at h
        cases hf : f w with
        | none => rw [hf] at h; exact absurd h (by simp)
        | some w2 =>
            rw [hf] at h
            have hfs2 : CFields.cons pre k mid w2 post rest = fs2 := by
              exact Option.some.inj h
            subst hfs2
            refine ⟨w, w2, by simp [findC], hf, by simp [findC], ?_⟩
            intro q2 hq2
            have hk2 : ¬ k = q2 := fun hh => hq2 hh.symm
            simp [findC, hk2]
      · simp only [patchFieldsWith, if_neg hk] at h
        cases hr : patchFieldsWith f rest q with
        | none => rw [hr] at h; exact absurd h (by simp)
        | some rest2 =>
            rw [hr] at h
            have hfs2 : CFields.cons pre k mid w post rest2 = fs2 := by
              exact Option.some.inj h
            subst hfs2
            obtain ⟨w0, w2, hfind, hf, hfind2, hoth⟩ :=
              patchFieldsWith_spec f rest rest2 q hr
            refine ⟨w0, w2, by simp [findC, hk, hfind], hf,
              by simp [findC, hk, hfind2], ?_⟩
            intro q2 hq2
            by_cases hk2 : k = q2
            · simp [findC, hk2]
            · simp [findC, hk2, hoth q2 hq2]

/-- A successful item patch happened at the requested index,
transformed exactly that item, and left every other index unchanged. -/
theorem patchItemsWith_spec (f : CVal → Option CVal) :
    (its its2 : CItems) → (i : Nat) → patchItemsWith f its i = some its2 →
      ∃ w w2, getC its i = some w ∧ f w = some w2 ∧ getC its2 i = some w2 ∧
        ∀ j, j ≠ i → getC its2 j = getC its j
  | .nil, its2, i, h => by simp [patchItemsWith] at h
  | .cons pre w post rest, its2, 0, h => by
      simp only [patchItemsWith] at h
      cases hf : f w with
      | none => rw [hf] at h; exact absurd h (by simp)
      | some w2 =>
          rw [hf] at h
          have hits2 : CItems.cons pre w2 post rest = its2 := Option.some.inj h
          subst hits2
          refine ⟨w, w2, rfl, hf, rfl, ?_⟩
          intro j hj
          cases j with
          | zero => exact absurd rfl hj
          | succ n => rfl
  | .cons pre w post rest, its2, n + 1, h => by
      simp only [patchItemsWith] at h
      cases hr : patchItemsWith f rest n with
      | none => rw [hr] at h; exact absurd h (by simp)
      | some rest2 =>
          rw [hr] at h
          have hits2 : CItems.cons pre w post rest2 = its2 := Option.some.inj h
          subst hits2
          obtain ⟨w0, w2, hget, hf, hget2, hoth⟩ :=
            patchItemsWith_spec f rest rest2 n hr
          refine ⟨w0, w2, hget, hf, hget2, ?_⟩
          intro j hj
          cases j with
          | zero => rfl
          | succ m =>
              have : m ≠ n := fun hh => hj (by rw [hh])
              exact hoth m this

/-- After a successful patch, resolving the path against the new
document's logical value returns exactly the new value. -/
theorem resolveJ_patchP (v : JVal) :
    (p : List Seg) → (c c2 : CVal) → patchP p v c = some c2 →
      resolveJ (stripV c2) p = some v
  | [], c, c2, h => by
      have hc2 : toCST 0 v = c2 := Option.some.inj h
      subst hc2
      simp [resolveJ, stripV_toCST]
  | .key k :: rest, c, c2, h => by
      cases c with
      | cobj fs ws =>
          simp only [patchP] at h
          cases hp : patchFieldsWith (patchP rest v) fs k with
          | none => rw [hp] at h; exact absurd h (by simp)
          | some fs2 =>
              rw [hp] at h
              have hc2 : CVal.cobj fs2 ws = c2 := Option.some.inj h
              subst hc2
              obtain ⟨w, w2, _, hw2, hfind2, _⟩ :=
                patchFieldsWith_spec (patchP rest v) fs fs2 k hp
              have hlook : lookupJ (stripFields fs2) k = some (stripV w2) := by
                rw [lookupJ_stripFields, hfind2]; rfl
              show resolveJ (JVal.obj (stripFields fs2)) (.key k :: rest) = some v
              simp only [resolveJ, hlook]
              exact resolveJ_patchP v rest w w2 hw2
      | cnull => exact absurd h (by simp [patchP])
      | cbool b => exact absurd h (by simp [patchP])
      | cnum n => exact absurd h (by simp [patchP])
      | cstr s => exact absurd h (by simp [patchP])
      | carr its ws => exact absurd h (by simp [patchP])
  | .idx i :: rest, c, c2, h => by
      cases c with
      | carr its ws =>
          simp only [patchP] at h
          cases hp : patchItemsWith (patchP rest v) its i with
          | none => rw [hp] at h; exact absurd h (by simp)
          | some its2 =>
              rw [hp] at h
              have hc2 : CVal.carr its2 ws = c2 := Option.some.inj h
              subst hc2
              obtain ⟨w, w2, _, hw2, hget2, _⟩ :=
                patchItemsWith_spec (patchP rest v) its its2 i hp
              have hlook : getJ (stripItems its2) i = some (stripV w2) := by
                rw [getJ_stripItems, hget2]; rfl
              show resolveJ (JVal.arr (stripItems its2)) (.idx i :: rest) = some v
              simp only [resolveJ, hlook]
              exact resolveJ_patchP v rest w w2 hw2
      | cnull => exact absurd h (by simp [patchP])
      | cbool b => exact absurd h (by simp [patchP])
      | cnum n => exact absurd h (by simp [patchP])
      | cstr s => exact absurd h (by simp [patchP])
      | cobj fs ws => exact absurd h (by simp [patchP])

/-- A successful patch implies the path was resolvable in the original
document. -/
theorem resolve_of_patchP (v : JVal) :
    (p : List Seg) → (c c2 : CVal) → patchP p v c = some c2 →
      (resolveJ (stripV c) p).isSome = true
  | [], c, c2, _ => by simp [resolveJ]
  | .key k :: rest, c, c2, h => by
      cases c with
      | cobj fs ws =>
          simp only [patchP] at h
          cases hp : patchFieldsWith (patchP rest v) fs k with
          | none => rw [hp] at h; exact absurd h (by simp)
          | some fs2 =>
              obtain ⟨w, w2, hfind, hw2, _, _⟩ :=
                patchFieldsWith_spec (patchP rest v) fs fs2 k hp
              have hlook : lookupJ (stripFields fs) k = some (stripV w) := by
                rw [lookupJ_stripFields, hfind]; rfl
              show (resolveJ (JVal.obj (stripFields fs)) (.key k :: rest)).isSome = true
              simp only [resolveJ, hlook]
              exact resolve_of_patchP v rest w w2 hw2
      | cnull => exact absurd h (by simp [patchP])
      | cbool b => exact absurd h (by simp [patchP])
      | cnum n => exact absurd h (by simp [patchP])
      | cstr s => exact absurd h (by simp [patchP])
      | carr its ws => exact absurd h (by simp [patchP])
  | .idx i :: rest, c, c2, h => by
      cases c with
      | carr its ws =>
          simp only [patchP] at h
          cases hp : patchItemsWith (patchP rest v) its i with
          | none => rw [hp] at h; exact absurd h (by simp)
          | some its2 =>
              obtain ⟨w, w2, hget, hw2, _, _⟩ :=
                patchItemsWith_spec (patchP rest v) its its2 i hp
              have hlook : getJ (stripItems its) i = some (stripV w) := by
                rw [getJ_stripItems, hget]; rfl
              show (resolveJ (JVal.arr (stripItems its)) (.idx i :: rest)).isSome = true
              simp only [resolveJ, hlook]
              exact resolve_of_patchP v rest w w2 hw2
      | cnull => exact absurd h (by simp [patchP])
      | cbool b => exact absurd h (by simp [patchP])
      | cnum n => exact absurd h (by simp [patchP])
      | cstr s => exact absurd h (by simp [patchP])
      | cobj fs ws => exact absurd h (by simp [patchP])

/-- Fields direction of patchability: when the key is found and the
child patch succeeds, the field patch succeeds. -/
theorem patchFieldsWith_of_findC (f : CVal → Option CVal) :
    (fs : CFields) → (q : String) → (w : CVal) → findC fs q = some w →
      (f w).isSome = true → (patchFieldsWith f fs q).isSome = true
  | .nil, q, w, h, _ => by simp [findC] at h
  | .cons pre k mid w0 post rest, q, w, h, hf => by
      by_cases hk : k = q
      · subst hk
        simp only [findC, if_pos rfl] at h
        have hw : w0 = w := Option.some.inj h
        subst hw
        simp only [patchFieldsWith, if_pos rfl]
        cases hfw : f w0 with
        | none => rw [hfw] at hf; simp at hf
        | some w2 => simp
      · simp only [findC, if_neg hk] at h
        have ih := patchFieldsWith_of_findC f rest q w h hf
        simp only [patchFieldsWith, if_neg hk]
        cases hr : patchFieldsWith f rest q with
        | none => rw [hr] at ih; simp at ih
        | some rest2 => simp

/-- Items direction of patchability. -/
theorem patchItemsWith_of_getC (f : CVal → Option CVal) :
    (its : CItems) → (i : Nat) → (w : CVal) → getC its i = some w →
      (f w).isSome = true → (patchItemsWith f its i).isSome = true
  | .nil, i, w, h, _ => by simp [getC] at h
  | .cons pre w0 post rest, 0, w, h, hf => by
      have hw : w0 = w := Option.some.inj h
      subst hw
      simp only [patchItemsWith]
      cases hfw : f w0 with
      | none => rw [hfw] at hf; simp at hf
      | some w2 => simp
  | .cons pre w0 post rest, n + 1, w, h, hf => by
      have ih := patchItemsWith_of_getC f rest n w h hf
      simp only [patchItemsWith]
      cases hr : patchItemsWith f rest n with
      | none => rw [hr] at ih; simp at ih
      | some rest2 => simp

/-- A resolvable path is patchable. -/
theorem patchP_of_resolve (v : JVal) :
    (p : List Seg) → (c : CVal) → (resolveJ (stripV c) p).isSome = true →
      (patchP p v c).isSome = true
  | [], c, _ => by simp [patchP]
  | .key k :: rest, c, h => by
      cases c with
      | cobj fs ws =>
          rw [show stripV (CVal.cobj fs ws) = JVal.obj (stripFields fs) from rfl] at h
          cases hfind : findC fs k with
          | none =>
              have hlook : lookupJ (stripFields fs) k = none := by
                rw [lookupJ_stripFields, hfind]; rfl
              simp only [resolveJ, hlook] at h
              simp at h
          | some w =>
              have hlook : lookupJ (stripFields fs) k = some (stripV w) := by
                rw [lookupJ_stripFields, hfind]; rfl
              simp only [resolveJ, hlook] at h
              have ih := patchP_of_resolve v rest w h
              have hfw := patchFieldsWith_of_findC (patchP rest v) fs k w hfind ih
              simp only [patchP]
              cases hr : patchFieldsWith (patchP rest v) fs k with
              | none => rw [hr] at hfw; simp at hfw
              | some fs2 => simp
      | cnull => simp [stripV, resolveJ] at h
      | cbool b => simp [stripV, resolveJ] at h
      | cnum n => simp [stripV, resolveJ] at h
      | cstr s => simp [stripV, resolveJ] at h
      | carr its ws => simp [stripV, resolveJ] at h
  | .idx i :: rest, c, h => by
      cases c with
      | carr its ws =>
          rw [show stripV (CVal.carr its ws) = JVal.arr (stripItems its) from rfl] at h
          cases hget : getC its i with
          | none =>
              have hlook : getJ (stripItems its) i = none := by
                rw [getJ_stripItems, hget]; rfl
              simp only [resolveJ, hlook] at h
              simp at h
          | some w =>
              have hlook : getJ (stripItems its) i = some (stripV w) := by
                rw [getJ_stripItems, hget]; rfl
              simp only [resolveJ, hlook] at h
              have ih := patchP_of_resolve v rest w h
              have hiw := patchItemsWith_of_getC (patchP rest v) its i w hget ih
              simp only [patchP]
              cases hr : patchItemsWith (patchP rest v) its i with
              | none => rw [hr] at hiw; simp at hiw
              | some its2 => simp
      | cnull => simp [stripV, resolveJ] at h
      | cbool b => simp [stripV, resolveJ] at h
      | cnum n => simp [stripV, resolveJ] at h
      | cstr s => simp [stripV, resolveJ] at h
      | cobj fs ws => simp [stripV, resolveJ] at h

/-! ### C3: unresolvable path is a controlled no-op -/

/-- C3: when the captured path cannot be resolved against the document
(its shape changed since capture), the patch operation returns the
original text unchanged — no partial edits are applied.  The patch
step is the spec-modelled jsonc-parser edit, whose failure policy the
spec fixes as a controlled no-op. -/
theorem updateJsonAtPath_unresolvable_noop (doc : CVal) (P : List Seg) (v : JVal)
    (h : resolveJ (stripV doc) P = none) :
    updateJsonAtPath doc P v = printVal doc := by
  cases P with
  | nil => simp [resolveJ] at h
  | cons s rest =>
      cases hp : patchC doc (s :: rest) v with
      | none => exact updateJsonAtPath_recovers_original _ _ _ hp
      | some c2 =>
          have hs := resolve_of_patchP v (s :: rest) doc c2 hp
          rw [h] at hs
          simp at hs

/-- Witness for C3 at a concrete input: the key `b` does not exist in
`{"a": 1}`, and the patch returns the document text unchanged. -/
theorem updateJsonAtPath_unresolvable_noop_witness :
    resolveJ (stripV (CVal.cobj (.cons "" "a" " " (.cnum 1) "" .nil) ""))
        [Seg.key "b"] = none ∧
    updateJsonAtPath (CVal.cobj (.cons "" "a" " " (.cnum 1) "" .nil) "")
        [Seg.key "b"] (JVal.num 2) =
      printVal (CVal.cobj (.cons "" "a" " " (.cnum 1) "" .nil) "") :=
  ⟨rfl, updateJsonAtPath_unresolvable_noop
    (CVal.cobj (.cons "" "a" " " (.cnum 1) "" .nil) "") [Seg.key "b"] (JVal.num 2) rfl⟩

/-- Frame property of the patch at tree level: navigation to any path
that is disjoint from the patched one (neither is a prefix of the
other) is unchanged. -/
theorem patchP_frame (v : JVal) :
    (p : List Seg) → (c c2 : CVal) → patchP p v c = some c2 →
      (q : List Seg) → ¬ p <+: q → ¬ q <+: p → navC c2 q = navC c q
  | [], _, _, _, q, hpq, _ => absurd List.nil_prefix hpq
  | .key k :: rest, c, c2, h, q, hpq, hqp => by
      cases c with
      | cobj fs ws =>
          simp only [patchP] at h
          cases hp : patchFieldsWith (patchP rest v) fs k with
          | none => rw [hp] at h; exact absurd h (by simp)
          | some fs2 =>
              rw [hp] at h
              have hc2 : CVal.cobj fs2 ws = c2 := Option.some.inj h
              subst hc2
              obtain ⟨w, w2, hfind, hw2, hfind2, hoth⟩ :=
                patchFieldsWith_spec (patchP rest v) fs fs2 k hp
              cases q with
              | nil => exact absurd List.nil_prefix hqp
              | cons s q2 =>
                  cases s with
                  | key k2 =>
                      by_cases hk : k2 = k
                      · subst hk
                        have hpq2 : ¬ rest <+: q2 := fun hh =>
                          hpq (List.cons_prefix_cons.mpr ⟨rfl, hh⟩)
                        have hqp2 : ¬ q2 <+: rest := fun hh =>
                          hqp (List.cons_prefix_cons.mpr ⟨rfl, hh⟩)
                        show navC (CVal.cobj fs2 ws) (.key k2 :: q2) =
                          navC (CVal.cobj fs ws) (.key k2 :: q2)
                        simp only [navC, hfind2, hfind]
                        exact patchP_frame v rest w w2 hw2 q2 hpq2 hqp2
                      · have hsame := hoth k2 hk
                        show navC (CVal.cobj fs2 ws) (.key k2 :: q2) =
                          navC (CVal.cobj fs ws) (.key k2 :: q2)
                        simp only [navC, hsame]
                  | idx i => simp [navC]
      | cnull => exact absurd h (by simp [patchP])
      | cbool b => exact absurd h (by simp [patchP])
      | cnum n => exact absurd h (by simp [patchP])
      | cstr s => exact absurd h (by simp [patchP])
      | carr its ws => exact absurd h (by simp [patchP])
  | .idx i :: rest, c, c2, h, q, hpq, hqp => by
      cases c with
      | carr its ws =>
          simp only [patchP] at h
          cases hp : patchItemsWith (patchP rest v) its i with
          | none => rw [hp] at h; exact absurd h (by simp)
          | some its2 =>
              rw [hp] at h
              have hc2 : CVal.carr its2 ws = c2 := Option.some.inj h
              subst hc2
              obtain ⟨w, w2, hget, hw2, hget2, hoth⟩ :=
                patchItemsWith_spec (patchP rest v) its its2 i hp
              cases q with
              | nil => exact absurd List.nil_prefix hqp
              | cons s q2 =>
                  cases s with
                  | idx j =>
                      by_cases hj : j = i
                      · subst hj
                        have hpq2 : ¬ rest <+: q2 := fun hh =>
                          hpq (List.cons_prefix_cons.mpr ⟨rfl, hh⟩)
                        have hqp2 : ¬ q2 <+: rest := fun hh =>
                          hqp (List.cons_prefix_cons.mpr ⟨rfl, hh⟩)
                        show navC (CVal.carr its2 ws) (.idx j :: q2) =
                          navC (CVal.carr its ws) (.idx j :: q2)
                        simp only [navC, hget2, hget]
                        exact patchP_frame v rest w w2 hw2 q2 hpq2 hqp2
                      · have hsame := hoth j hj
                        show navC (CVal.carr its2 ws) (.idx j :: q2) =
                          navC (CVal.carr its ws) (.idx j :: q2)
                        simp only [navC, hsame]
                  | key k2 => simp [navC]
      | cnull => exact absurd h (by simp [patchP])
      | cbool b => exact absurd h (by simp [patchP])
      | cnum n => exact absurd h (by simp [patchP])
      | cstr s => exact absurd h (by simp [patchP])
      | cobj fs ws => exact absurd h (by simp [patchP])

/-- Byte decomposition of a field patch inside the comma-prefixed tail
printer: only the addressed field's value text changes. -/
theorem patchFieldsWith_sep_print (f : CVal → Option CVal) :
    (fs fs2 : CFields) → (q : String) → patchFieldsWith f fs q = some fs2 →
      ∃ A B w w2, findC fs q = some w ∧ f w = some w2 ∧
        sepFields fs = A ++ (printVal w ++ B) ∧
        sepFields fs2 = A ++ (printVal w2 ++ B)
  | .nil, fs2, q, h => by simp [patchFieldsWith] at h
  | .cons pre k mid w post rest, fs2, q, h => by
      by_cases hk : k = q
      · subst hk
        simp only [patchFieldsWith, if_pos rfl] at h
        cases hf : f w with
        | none => rw [hf] at h; exact absurd h (by simp)
        | some w2 =>
            rw [hf] at h
            have hfs2 : CFields.cons pre k mid w2 post rest = fs2 := Option.some.inj h
            subst hfs2
            refine ⟨"," ++ pre ++ quoteStr k ++ ":" ++ mid, post ++ sepFields rest,
              w, w2, by simp [findC], hf, ?_, ?_⟩
            · show "," ++ pre ++ quoteStr k ++ ":" ++ mid ++ printVal w ++ post ++
                sepFields rest = _
              simp only [String.append_assoc]
            · show "," ++ pre ++ quoteStr k ++ ":" ++ mid ++ printVal w2 ++ post ++
                sepFields rest = _
              simp only [String.append_assoc]
      · simp only [patchFieldsWith, if_neg hk] at h
        cases hr : patchFieldsWith f rest q with
        | none => rw [hr] at h; exact absurd h (by simp)
        | some rest2 =>
            rw [hr] at h
            have hfs2 : CFields.cons pre k mid w post rest2 = fs2 := Option.some.inj h
            subst hfs2
            obtain ⟨A, B, w0, w2, hfind, hf, hsep, hsep2⟩ :=
              patchFieldsWith_sep_print f rest rest2 q hr
            refine ⟨"," ++ pre ++ quoteStr k ++ ":" ++ mid ++ printVal w ++ post ++ A,
              B, w0, w2, by simp [findC, hk, hfind], hf, ?_, ?_⟩
            · show "," ++ pre ++ quoteStr k ++ ":" ++ mid ++ printVal w ++ post ++
                sepFields rest = _
              rw [hsep]
              simp only [String.append_assoc]
            · show "," ++ pre ++ quoteStr k ++ ":" ++ mid ++ printVal w ++ post ++
                sepFields rest2 = _
              rw [hsep2]
              simp only [String.append_assoc]

/-- Byte decomposition of a field patch under the head printer. -/
theorem patchFieldsWith_print (f : CVal → Option CVal) :
    (fs fs2 : CFields) → (q : String) → patchFieldsWith f fs q = some fs2 →
      ∃ A B w w2, findC fs q = some w ∧ f w = some w2 ∧
        printFields fs = A ++ (printVal w ++ B) ∧
        printFields fs2 = A ++ (printVal w2 ++ B)
  | .nil, fs2, q, h => by simp [patchFieldsWith] at h
  | .cons pre k mid w post rest, fs2, q, h => by
      by_cases hk : k = q
      · subst hk
        simp only [patchFieldsWith, if_pos rfl] at h
        cases hf : f w with
        | none => rw [hf] at h; exact absurd h (by simp)
        | some w2 =>
            rw [hf] at h
            have hfs2 : CFields.cons pre k mid w2 post rest = fs2 := Option.some.inj h
            subst hfs2
            refine ⟨pre ++ quoteStr k ++ ":" ++ mid, post ++ sepFields rest,
              w, w2, by simp [findC], hf, ?_, ?_⟩
            · show pre ++ quoteStr k ++ ":" ++ mid ++ printVal w ++ post ++
                sepFields rest = _
              simp only [String.append_assoc]
            · show pre ++ quoteStr k ++ ":" ++ mid ++ printVal w2 ++ post ++
                sepFields rest = _
              simp only [String.append_assoc]
      · simp only [patchFieldsWith, if_neg hk] at h
        cases hr : patchFieldsWith f rest q with
        | none => rw [hr] at h; exact absurd h (by simp)
        | some rest2 =>
            rw [hr] at h
            have hfs2 : CFields.cons pre k mid w post rest2 = fs2 := Option.some.inj h
            subst hfs2
            obtain ⟨A, B, w0, w2, hfind, hf, hsep, hsep2⟩ :=
              patchFieldsWith_sep_print f rest rest2 q hr
            refine ⟨pre ++ quoteStr k ++ ":" ++ mid ++ printVal w ++ post ++ A,
              B, w0, w2, by simp [findC, hk, hfind], hf, ?_, ?_⟩
            · show pre ++ quoteStr k ++ ":" ++ mid ++ printVal w ++ post ++
                sepFields rest = _
              rw [hsep]
              simp only [String.append_assoc]
            · show pre ++ quoteStr k ++ ":" ++ mid ++ printVal w ++ post ++
                sepFields rest2 = _
              rw [hsep2]
              simp only [String.append_assoc]

/-- Byte decomposition of an item patch inside the comma-prefixed tail
printer. -/
theorem patchItemsWith_sep_print (f : CVal → Option CVal) :
    (its its2 : CItems) → (i : Nat) → patchItemsWith f its i = some its2 →
      ∃ A B w w2, getC its i = some w ∧ f w = some w2 ∧
        sepItems its = A ++ (printVal w ++ B) ∧
        sepItems its2 = A ++ (printVal w2 ++ B)
  | .nil, its2, i, h => by simp [patchItemsWith] at h
  | .cons pre w post rest, its2, 0, h => by
      simp only [patchItemsWith] at h
      cases hf : f w with
      | none => rw [hf] at h; exact absurd h (by simp)
      | some w2 =>
          rw [hf] at h
          have hits2 : CItems.cons pre w2 post rest = its2 := Option.some.inj h
          subst hits2
          refine ⟨"," ++ pre, post ++ sepItems rest, w, w2, rfl, hf, ?_, ?_⟩
          · show "," ++ pre ++ printVal w ++ post ++ sepItems rest = _
            simp only [String.append_assoc]
          · show "," ++ pre ++ printVal w2 ++ post ++ sepItems rest = _
            simp only [String.append_assoc]
  | .cons pre w post rest, its2, n + 1, h => by
      simp only [patchItemsWith] at h
      cases hr : patchItemsWith f rest n with
      | none => rw [hr] at h; exact absurd h (by simp)
      | some rest2 =>
          rw [hr] at h
          have hits2 : CItems.cons pre w post rest2 = its2 := Option.some.inj h
          subst hits2
          obtain ⟨A, B, w0, w2, hget, hf, hsep, hsep2⟩ :=
            patchItemsWith_sep_print f rest rest2 n hr
          refine ⟨"," ++ pre ++ printVal w ++ post ++ A, B, w0, w2, hget, hf, ?_, ?_⟩
          · show "," ++ pre ++ printVal w ++ post ++ sepItems rest = _
            rw [hsep]
            simp only [String.append_assoc]
          · show "," ++ pre ++ printVal w ++ post ++ sepItems rest2 = _
            rw [hsep2]
            simp only [String.append_assoc]

/-- Byte decomposition of an item patch under the head printer. -/
theorem patchItemsWith_print (f : CVal → Option CVal) :
    (its its2 : CItems) → (i : Nat) → patchItemsWith f its i = some its2 →
      ∃ A B w w2, getC its i = some w ∧ f w = some w2 ∧
        printItems its = A ++ (printVal w ++ B) ∧
        printItems its2 = A ++ (printVal w2 ++ B)
  | .nil, its2, i, h => by simp [patchItemsWith] at h
  | .cons pre w post rest, its2, 0, h => by
      simp only [patchItemsWith] at h
      cases hf : f w with
      | none => rw [hf] at h; exact absurd h (by simp)
      | some w2 =>
          rw [hf] at h
          have hits2 : CItems.cons pre w2 post rest = its2 := Option.some.inj h
          subst hits2
          refine ⟨pre, post ++ sepItems rest, w, w2, rfl, hf, ?_, ?_⟩
          · show pre ++ printVal w ++ post ++ sepItems rest = _
            simp only [String.append_assoc]
          · show pre ++ printVal w2 ++ post ++ sepItems rest = _
            simp only [String.append_assoc]
  | .cons pre w post rest, its2, n + 1, h => by
      simp only [patchItemsWith] at h
      cases hr : patchItemsWith f rest n with
      | none => rw [hr] at h; exact absurd h (by simp)
      | some rest2 =>
          rw [hr] at h
          have hits2 : CItems.cons pre w post rest2 = its2 := Option.some.inj h
          subst hits2
          obtain ⟨A, B, w0, w2, hget, hf, hsep, hsep2⟩ :=
            patchItemsWith_sep_print f rest rest2 n hr
          refine ⟨pre ++ printVal w ++ post ++ A, B, w0, w2, hget, hf, ?_, ?_⟩
          · show pre ++ printVal w ++ post ++ sepItems rest = _
            rw [hsep]
            simp only [String.append_assoc]
          · show pre ++ printVal w ++ post ++ sepItems rest2 = _
            rw [hsep2]
            simp only [String.append_assoc]

/-- Byte-level frame property of the patch: the document text splits
into a prefix, the addressed value's bytes and a suffix; after the
patch the text is the same prefix, then the canonical serialization of
the new value, then the same suffix — every byte outside the addressed
value (indentation, key order, unrelated whitespace) is unchanged. -/
theorem patchP_print_decomp (v : JVal) :
    (p : List Seg) → (c c2 : CVal) → patchP p v c = some c2 →
      ∃ pre suf old, navC c p = some old ∧
        printVal c = pre ++ (printVal old ++ suf) ∧
        printVal c2 = pre ++ (pretty v ++ suf)
  | [], c, c2, h => by
      have hc2 : toCST 0 v = c2 := Option.some.inj h
      subst hc2
      refine ⟨"", "", c, ?_, ?_, ?_⟩
      · cases c <;> rfl
      · simp [String.append_empty]
      · show printVal (toCST 0 v) = "" ++ (pretty v ++ "")
        simp [String.append_empty, pretty]
  | .key k :: rest, c, c2, h => by
      cases c with
      | cobj fs ws =>
          simp only [patchP] at h
          cases hp : patchFieldsWith (patchP rest v) fs k with
          | none => rw [hp] at h; exact absurd h (by simp)
          | some fs2 =>
              rw [hp] at h
              have hc2 : CVal.cobj fs2 ws = c2 := Option.some.inj h
              subst hc2
              obtain ⟨A, B, w, w2, hfind, hw2, hpr, hpr2⟩ :=
                patchFieldsWith_print (patchP rest v) fs fs2 k hp
              obtain ⟨p1, s1, old, hnav, hw, hw2pr⟩ :=
                patchP_print_decomp v rest w w2 hw2
              refine ⟨"\x7b" ++ (A ++ p1), s1 ++ (B ++ (ws ++ "\x7d")), old, ?_, ?_, ?_⟩
              · show navC (CVal.cobj fs ws) (.key k :: rest) = some old
                simp only [navC, hfind]
                exact hnav
              · show "\x7b" ++ printFields fs ++ ws ++ "\x7d" = _
                rw [hpr, hw]
                simp only [String.append_assoc]
              · show "\x7b" ++ printFields fs2 ++ ws ++ "\x7d" = _
                rw [hpr2, hw2pr]
                simp only [String.append_assoc]
      | cnull => exact absurd h (by simp [patchP])
      | cbool b => exact absurd h (by simp [patchP])
      | cnum n => exact absurd h (by simp [patchP])
      | cstr s => exact absurd h (by simp [patchP])
      | carr its ws => exact absurd h (by simp [patchP])
  | .idx i :: rest, c, c2, h => by
      cases c with
      | carr its ws =>
          simp only [patchP] at h
          cases hp : patchItemsWith (patchP rest v) its i with
          | none => rw [hp] at h; exact absurd h (by simp)
          | some its2 =>
              rw [hp] at h
              have hc2 : CVal.carr its2 ws = c2 := Option.some.inj h
              subst hc2
              obtain ⟨A, B, w, w2, hget, hw2, hpr, hpr2⟩ :=
                patchItemsWith_print (patchP rest v) its its2 i hp
              obtain ⟨p1, s1, old, hnav, hw, hw2pr⟩ :=
                patchP_print_decomp v rest w w2 hw2
              refine ⟨"[" ++ (A ++ p1), s1 ++ (B ++ (ws ++ "]")), old, ?_, ?_, ?_⟩
              · show navC (CVal.carr its ws) (.idx i :: rest) = some old
                simp only [navC, hget]
                exact hnav
              · show "[" ++ printItems its ++ ws ++ "]" = _
                rw [hpr, hw]
                simp only [String.append_assoc]
              · show "[" ++ printItems its2 ++ ws ++ "]" = _
                rw [hpr2, hw2pr]
                simp only [String.append_assoc]
      | cnull => exact absurd h (by simp [patchP])
      | cbool b => exact absurd h (by simp [patchP])
      | cnum n => exact absurd h (by simp [patchP])
      | cstr s => exact absurd h (by simp [patchP])
      | cobj fs ws => exact absurd h (by simp [patchP])

/-! ### C1: patching a valid non-empty path -/

/-- C1 (amended): for every document, non-empty path `P` valid in it
and new value `v`, the patch succeeds, re-resolving `P` against the
result returns exactly `v`, every structurally addressable value whose
path is disjoint from `P` (neither a prefix of the other) keeps its
exact bytes, and the whole document text splits as
`pre ++ old ++ suf → pre ++ serialization(v) ++ suf`: every byte
outside the addressed value — indentation, key order, unrelated
whitespace — is unchanged.  (The claim's original quantification over
"every other structurally addressable value" fails for ancestors of
`P`, whose byte regions contain the edited value; see the
counterexample.) -/
theorem updateJsonAtPath_valid_patch (doc : CVal) (P : List Seg) (v : JVal)
    (hne : P ≠ []) (hvalid : (resolveJ (stripV doc) P).isSome = true) :
    ∃ c2, patchC doc P v = some c2 ∧ updateJsonAtPath doc P v = printVal c2 ∧
      resolveJ (stripV c2) P = some v ∧
      (∀ Q, ¬ P <+: Q → ¬ Q <+: P → subtextAt c2 Q = subtextAt doc Q) ∧
      ∃ pre suf old, navC doc P = some old ∧
        printVal doc = pre ++ (printVal old ++ suf) ∧
        printVal c2 = pre ++ (pretty v ++ suf) := by
  have hpatch := patchP_of_resolve v P doc hvalid
  cases hp : patchP P v doc with
  | none => rw [hp] at hpatch; simp at hpatch
  | some c2 =>
      refine ⟨c2, hp, ?_, resolveJ_patchP v P doc c2 hp, ?_,
        patchP_print_decomp v P doc c2 hp⟩
      · cases P with
        | nil => exact absurd rfl hne
        | cons s rest =>
            show updateJsonAtPath doc (s :: rest) v = printVal c2
            simp only [updateJsonAtPath, patchC, hp]
            simp
      · intro Q h1 h2
        show Option.map printVal (navC c2 Q) = Option.map printVal (navC doc Q)
        rw [patchP_frame v P doc c2 hp Q h1 h2]

/-- The document `{"a": 1, "b": {"c": 2}}` with its original (one-line)
formatting, used as concrete input below. -/
def exDocC1 : CVal :=
  .cobj (.cons "" "a" " " (.cnum 1) ""
        (.cons " " "b" " " (.cobj (.cons "" "c" " " (.cnum 2) "" .nil) "") "" .nil)) ""

/-- Witness for C1 at a concrete input: patching `["b","c"]` in
`{"a": 1, "b": {"c": 2}}`. -/
theorem updateJsonAtPath_valid_patch_witness :
    ([Seg.key "b", Seg.key "c"] ≠ ([] : List Seg)) ∧
    (resolveJ (stripV exDocC1) [Seg.key "b", Seg.key "c"]).isSome = true ∧
    (∃ c2, patchC exDocC1 [Seg.key "b", Seg.key "c"] (JVal.num 5) = some c2 ∧
      updateJsonAtPath exDocC1 [Seg.key "b", Seg.key "c"] (JVal.num 5) = printVal c2 ∧
      resolveJ (stripV c2) [Seg.key "b", Seg.key "c"] = some (JVal.num 5) ∧
      (∀ Q, ¬ [Seg.key "b", Seg.key "c"] <+: Q → ¬ Q <+: [Seg.key "b", Seg.key "c"] →
        subtextAt c2 Q = subtextAt exDocC1 Q) ∧
      ∃ pre suf old, navC exDocC1 [Seg.key "b", Seg.key "c"] = some old ∧
        printVal exDocC1 = pre ++ (printVal old ++ suf) ∧
        printVal c2 = pre ++ (pretty (JVal.num 5) ++ suf)) :=
  ⟨by decide, rfl,
    updateJsonAtPath_valid_patch exDocC1 [Seg.key "b", Seg.key "c"] (JVal.num 5)
      (by decide) rfl⟩

/-- The document `{"a": 1}`, used as concrete input below. -/
def exDocSmall : CVal :=
  .cobj (.cons "" "a" " " (.cnum 1) "" .nil) ""

/-- Counterexample to C1 as stated: in `{"a": 1}` with `P = ["a"]` and
`v = 2`, the root path `[]` addresses another structurally addressable
value of the document (it differs from `P` and resolves), yet its
bytes are `{"a": 1}` before and `{"a": 2}` after the patch — an
ancestor of the edited path is never byte-identical when the value
changes, so "every other structurally addressable value" is too
strong. -/
theorem updateJsonAtPath_c1_counterexample :
    ([Seg.key "a"] ≠ ([] : List Seg)) ∧
    (resolveJ (stripV exDocSmall) [Seg.key "a"]).isSome = true ∧
    (([] : List Seg) ≠ [Seg.key "a"]) ∧
    (subtextAt exDocSmall []).isSome = true ∧
    subtextAt (updateJsonAtPathC exDocSmall [Seg.key "a"] (JVal.num 2)) [] ≠
      subtextAt exDocSmall [] ∧
    updateJsonAtPath exDocSmall [Seg.key "a"] (JVal.num 2) =
      printVal (updateJsonAtPathC exDocSmall [Seg.key "a"] (JVal.num 2)) := by
  refine ⟨by decide, rfl, by decide, rfl, ?_, rfl⟩
  intro h
  exact absurd h (by decide)

/-! ### Scenario checks from the spec's testable properties -/

/-- Spec scenario: `D = {"a":1,"b":{"c":2}}`, whole-value edit at
`["b"]` to `{"c":3,"d":4}` gives `{"a":1,"b":…}` with the `"a": 1`
region byte-identical to the original. -/
theorem scenario_nested_object_patch :
    updateJsonAtPath exDocC1 [Seg.key "b"]
        (JVal.obj (.cons "c" (.num 3) (.cons "d" (.num 4) .nil))) =
      "\x7b\"a\": 1, \"b\": \x7b\n  \"c\": 3,\n  \"d\": 4\n\x7d\x7d" := rfl

/-- Spec scenario: `D = [1,2,3]`, edit at `[1]` to `5` gives
`[1,5,3]`. -/
theorem scenario_array_patch :
    updateJsonAtPath
        (CVal.carr (.cons "" (.cnum 1) "" (.cons "" (.cnum 2) ""
          (.cons "" (.cnum 3) "" .nil))) "")
        [Seg.idx 1] (JVal.num 5) = "[1,5,3]" := rfl

/-! ### Record and merge lemmas for the commit phase -/

/-- Lookup after a JavaScript object assignment. -/
theorem lookupJ_insertJS :
    (m : JObj) → (k q : String) → (v : JVal) →
      lookupJ (insertJS m k v) q = if k = q then some v else lookupJ m q
  | .nil, k, q, v => by
      by_cases h : k = q
      · simp [insertJS, lookupJ, h]
      · simp [insertJS, lookupJ, h]
  | .cons k0 v0 rest, k, q, v => by
      by_cases h0 : k0 = k
      · subst h0
        simp only [insertJS, if_pos rfl]
        by_cases h : k0 = q
        · simp [lookupJ, h]
        · simp [lookupJ, h]
      · simp only [insertJS, if_neg h0]
        by_cases h : k0 = q
        · subst h
          have hk : ¬ k = k0 := fun hh => h0 hh.symm
          simp [lookupJ, hk]
        · simp [lookupJ, h, lookupJ_insertJS rest k q v]

/-- Lookup after a JavaScript record assignment. -/
theorem lookupStr_insertStr :
    (l : List (String × String)) → (k q v : String) →
      lookupStr (insertStr l k v) q = if k = q then some v else lookupStr l q
  | [], k, q, v => by
      by_cases h : k = q
      · simp [insertStr, lookupStr, h]
      · simp [insertStr, lookupStr, h]
  | (k0, v0) :: rest, k, q, v => by
      by_cases h0 : k0 = k
      · subst h0
        simp only [insertStr, if_pos rfl]
        by_cases h : k0 = q
        · simp [lookupStr, h]
        · simp [lookupStr, h]
      · simp only [insertStr, if_neg h0]
        by_cases h : k0 = q
        · subst h
          have hk : ¬ k = k0 := fun hh => h0 hh.symm
          simp [lookupStr, hk]
        · simp [lookupStr, h, lookupStr_insertStr rest k q v]

/-- A JavaScript record has one binding per key; `Object.entries` of a
record therefore never repeats a key.  This is the uniqueness test for
the modelled entry lists. -/
def keysUniqueB : List (String × String) → Bool
  | [] => true
  | (k, _) :: rest => !(lookupStr rest k).isSome && keysUniqueB rest

/-- Keys untouched by the edited entries are looked up in the base
object unchanged: composites and every other binding survive the
merge. -/
theorem mergeFields_lookup_none :
    (edits : List (String × String)) → (base : JObj) → (q : String) →
      lookupStr edits q = none →
      lookupJ (mergeFields base edits) q = lookupJ base q
  | [], base, q, _ => rfl
  | (k0, r0) :: rest, base, q, h => by
      have hk0 : ¬ k0 = q := by
        intro hh
        simp [lookupStr, hh] at h
      have hrest : lookupStr rest q = none := by
        simpa [lookupStr, hk0] using h
      show lookupJ (mergeFields (insertJS base k0 (fieldParse r0)) rest) q = _
      rw [mergeFields_lookup_none rest _ q hrest, lookupJ_insertJS, if_neg hk0]

/-- An edited key ends up bound to the leniently parsed edited text. -/
theorem mergeFields_lookup_edited :
    (edits : List (String × String)) → (base : JObj) → (q raw : String) →
      keysUniqueB edits = true → lookupStr edits q = some raw →
      lookupJ (mergeFields base edits) q = some (fieldParse raw)
  | [], base, q, raw, _, h => by simp [lookupStr] at h
  | (k0, r0) :: rest, base, q, raw, hu, h => by
      have hu2 : keysUniqueB rest = true := by
        have := hu
        simp only [keysUniqueB, Bool.and_eq_true] at this
        exact this.2
      by_cases hk0 : k0 = q
      · subst hk0
        have hraw : r0 = raw := by
          simpa [lookupStr] using h
        have hnone : lookupStr rest k0 = none := by
          have hh := hu
          simp only [keysUniqueB, Bool.and_eq_true, Bool.not_eq_true'] at hh
          cases hlk : lookupStr rest k0 with
          | none => rfl
          | some s => rw [hlk] at hh; simp at hh
        show lookupJ (mergeFields (insertJS base k0 (fieldParse r0)) rest) k0 = _
        rw [mergeFields_lookup_none rest _ k0 hnone, lookupJ_insertJS, if_pos rfl, hraw]
      · have hrest : lookupStr rest q = some raw := by
          simpa [lookupStr, hk0] using h
        exact mergeFields_lookup_edited rest _ q raw hu2 hrest

/-! ### C4: a failed commit mutates nothing -/

/-- C4: when the commit's value-construction phase fails validation,
the failure is reported (the error toast), the session stays in
Editing (`isEditing` untouched), the user's edited text is kept
intact, and the document is not mutated at all — the failed commit
performs zero mutation. -/
theorem handleSave_failed_commit_no_mutation (st : EditState)
    (h : buildValue st.doc st.node st.editedFields = .error ()) :
    handleSave st = (st, SaveResult.reportedError) ∧
    (handleSave st).1.doc = st.doc ∧
    (handleSave st).1.isEditing = st.isEditing ∧
    (handleSave st).1.editedFields = st.editedFields := by
  have h1 : handleSave st = (st, SaveResult.reportedError) := by
    simp [handleSave, h]
  refine ⟨h1, ?_, ?_, ?_⟩ <;> rw [h1]

/-- The document `{"a": null}`. -/
def exDocNull : CVal :=
  .cobj (.cons "" "a" " " .cnull "" .nil) ""

/-- An edit session whose captured path `["a","b"]` navigates into
`null` at commit time, which throws in the source. -/
def exStateBad : EditState :=
  { doc := exDocNull
    node := { path := [Seg.key "a", Seg.key "b"]
              text := [⟨some "p", .num 1, .tnum⟩, ⟨some "q", .num 2, .tnum⟩] }
    editedFields := [("p", "3")]
    isEditing := true }

/-- Witness for C4 at a concrete input: navigating `["a","b"]` into
`{"a": null}` fails, and the commit changes nothing. -/
theorem handleSave_failed_commit_no_mutation_witness :
    buildValue exStateBad.doc exStateBad.node exStateBad.editedFields = .error () ∧
    (handleSave exStateBad = (exStateBad, SaveResult.reportedError) ∧
      (handleSave exStateBad).1.doc = exStateBad.doc ∧
      (handleSave exStateBad).1.isEditing = exStateBad.isEditing ∧
      (handleSave exStateBad).1.editedFields = exStateBad.editedFields) :=
  ⟨rfl, handleSave_failed_commit_no_mutation exStateBad rfl⟩

/-! ### C5: strict whole-value parsing, lenient field parsing -/

/-- C5: in whole-value editing mode the edited text is parsed strictly
as JSON at commit — a parse failure is a hard validation error that
changes nothing, never a silent fallback to a literal string — while
in field mode each field's raw text is parsed as JSON if possible and
otherwise kept as a literal string. -/
theorem wholeValue_strict_field_lenient :
    (∀ (st : WState) (nd : GNode), st.selected = some nd →
      jsonParse st.editValue = none →
      handleSave000 st = (st, Outcome000.invalid)) ∧
    (∀ (base : JObj) (edits : List (String × String)) (q raw : String),
      keysUniqueB edits = true → lookupStr edits q = some raw →
      jsonParse raw = none →
      lookupJ (mergeFields base edits) q = some (JVal.str raw)) := by
  constructor
  · intro st nd hsel hparse
    simp [handleSave000, hsel, hparse]
  · intro base edits q raw hu hl hp
    rw [mergeFields_lookup_edited edits base q raw hu hl]
    simp [fieldParse, hp]

/-- A whole-value session holding unparsable text. -/
def exWState : WState :=
  { nodes := []
    selected := some ⟨0, some [], []⟩
    editValue := "nope"
    isEditing := true }

/-- Witness for C5 at concrete inputs: the whole-value commit of
`nope` is rejected without mutation, while a field-mode merge of the
same text stores it as the literal string `"nope"`. -/
theorem wholeValue_strict_field_lenient_witness :
    (exWState.selected = some ⟨0, some [], []⟩ ∧ jsonParse "nope" = none ∧
      handleSave000 exWState = (exWState, Outcome000.invalid)) ∧
    (keysUniqueB [("x", "nope")] = true ∧
      lookupStr [("x", "nope")] "x" = some "nope" ∧
      lookupJ (mergeFields .nil [("x", "nope")]) "x" = some (JVal.str "nope")) :=
  ⟨⟨rfl, rfl, wholeValue_strict_field_lenient.1 exWState ⟨0, some [], []⟩ rfl rfl⟩,
    ⟨rfl, rfl,
      wholeValue_strict_field_lenient.2 .nil [("x", "nope")] "x" "nope" rfl rfl rfl⟩⟩

/-! ### C6: field-mode merge preserves untouched bindings -/

/-- C6: in field-mode commit the new logical value is the edited
leaves merged over (a copy of) the value currently live at the
captured path, so the lookup of every untouched key — nested
composites included — is unchanged in the result. -/
theorem buildValue_field_merge_preserves (doc : CVal) (node : NodeD)
    (edits : List (String × String)) (fs : JObj)
    (hmode : isSingleUnkeyed node.text = false)
    (hnav : jsNav (some (stripV doc)) node.path = .ok (some (JVal.obj fs))) :
    buildValue doc node edits = .ok (JVal.obj (mergeFields fs edits)) ∧
    ∀ q, lookupStr edits q = none →
      lookupJ (mergeFields fs edits) q = lookupJ fs q := by
  constructor
  · simp [buildValue, hmode, hnav, spreadToObj]
  · intro q hq
    exact mergeFields_lookup_none edits fs q hq

/-- The document `{"x":1,"y":[9,9]}`. -/
def exDocXY : CVal :=
  .cobj (.cons "" "x" "" (.cnum 1) ""
        (.cons "" "y" ""
          (.carr (.cons "" (.cnum 9) "" (.cons "" (.cnum 9) "" .nil)) "") "" .nil)) ""

/-- The logical object `{"x":1,"y":[9,9]}`. -/
def exObjXY : JObj :=
  .cons "x" (.num 1)
    (.cons "y" (.arr (.cons (.num 9) (.cons (.num 9) .nil))) .nil)

/-- A field-mode session on the root node of `{"x":1,"y":[9,9]}`
editing only `x` to `2`. -/
def exStateXY : EditState :=
  { doc := exDocXY
    node := { path := []
              text := [⟨some "x", .num 1, .tnum⟩,
                       ⟨some "y", .arr (.cons (.num 9) (.cons (.num 9) .nil)), .tarr⟩] }
    editedFields := [("x", "2")]
    isEditing := true }

/-- Witness for C6 at the spec's scenario input. -/
theorem buildValue_field_merge_preserves_witness :
    isSingleUnkeyed exStateXY.node.text = false ∧
    jsNav (some (stripV exDocXY)) exStateXY.node.path = .ok (some (JVal.obj exObjXY)) ∧
    (buildValue exDocXY exStateXY.node [("x", "2")] =
        .ok (JVal.obj (mergeFields exObjXY [("x", "2")])) ∧
      ∀ q, lookupStr [("x", "2")] q = none →
        lookupJ (mergeFields exObjXY [("x", "2")]) q = lookupJ exObjXY q) :=
  ⟨rfl, rfl,
    buildValue_field_merge_preserves exDocXY exStateXY.node [("x", "2")] exObjXY rfl rfl⟩

/-- Spec scenario: committing the field-mode edit of `x` to `2` on
`{"x":1,"y":[9,9]}` leaves the `y` array contents unchanged and stores
the number `2` at `x`. -/
theorem scenario_field_edit_preserves_sibling :
    resolveJ (stripV (handleSave exStateXY).1.doc) [Seg.key "y"] =
      some (JVal.arr (.cons (.num 9) (.cons (.num 9) .nil))) ∧
    resolveJ (stripV (handleSave exStateXY).1.doc) [Seg.key "x"] =
      some (JVal.num 2) ∧
    (handleSave exStateXY).2 = SaveResult.saved :=
  ⟨rfl, rfl, rfl⟩

/-! ### C10: null-valued fields round-trip to empty strings -/

/-- The row whose binding survives in the working record for a key:
the last scalar row with that truthy key (later record assignments
overwrite earlier ones). -/
def lastBindRow : List Row → String → Option Row
  | [], _ => none
  | r :: rest, q =>
      match lastBindRow rest q with
      | some r2 => some r2
      | none =>
          if keyTruthy r.key && !isCompositeT r.rtype then
            if r.key.getD "" = q then some r else none
          else none

/-- What the field-initialization fold binds a key to: the string
coercion of the last surviving scalar row's value, else whatever the
accumulator held. -/
theorem lookupStr_initFold :
    (rows : List Row) → (acc : List (String × String)) → (q : String) →
      lookupStr
        (rows.foldl
          (fun acc2 r2 =>
            if keyTruthy r2.key && !isCompositeT r2.rtype then
              insertStr acc2 (r2.key.getD "") (jsStringOrEmpty r2.value)
            else acc2)
          acc) q =
      match lastBindRow rows q with
      | some r => some (jsStringOrEmpty r.value)
      | none => lookupStr acc q
  | [], acc, q => rfl
  | r :: rest, acc, q => by
      rw [List.foldl_cons, lookupStr_initFold rest _ q]
      cases hrest : lastBindRow rest q with
      | some r2 => simp [lastBindRow, hrest]
      | none =>
          simp only [lastBindRow, hrest]
          by_cases hc : (keyTruthy r.key && !isCompositeT r.rtype) = true
          · simp only [hc, if_pos rfl, if_true]
            rw [lookupStr_insertStr]
            by_cases hkq : r.key.getD "" = q
            · simp [hkq]
            · simp [hkq]
          · simp only [Bool.not_eq_true] at hc
            simp [hc]

/-- Inserting into a record with unique keys keeps the keys unique. -/
theorem keysUniqueB_insertStr :
    (l : List (String × String)) → (k v : String) →
      keysUniqueB l = true → keysUniqueB (insertStr l k v) = true
  | [], k, v, _ => by simp [insertStr, keysUniqueB, lookupStr]
  | (k0, v0) :: rest, k, v, h => by
      have hparts : (lookupStr rest k0).isSome = false ∧ keysUniqueB rest = true := by
        simpa [keysUniqueB, Bool.and_eq_true, Bool.not_eq_true'] using h
      by_cases h0 : k0 = k
      · subst h0
        simp only [insertStr, if_pos rfl]
        simp [keysUniqueB, hparts.1, hparts.2]
      · simp only [insertStr, if_neg h0]
        have hk : ¬ k = k0 := fun hh => h0 hh.symm
        simp [keysUniqueB, lookupStr_insertStr, hk, hparts.1,
          keysUniqueB_insertStr rest k v hparts.2]

/-- The field-initialization fold keeps record keys unique. -/
theorem keysUniqueB_initFold :
    (rows : List Row) → (acc : List (String × String)) →
      keysUniqueB acc = true →
      keysUniqueB
        (rows.foldl
          (fun acc2 r2 =>
            if keyTruthy r2.key && !isCompositeT r2.rtype then
              insertStr acc2 (r2.key.getD "") (jsStringOrEmpty r2.value)
            else acc2)
          acc) = true
  | [], acc, h => h
  | r :: rest, acc, h => by
      rw [List.foldl_cons]
      by_cases hc : (keyTruthy r.key && !isCompositeT r.rtype) = true
      · simp only [hc, if_true]
        exact keysUniqueB_initFold rest _ (keysUniqueB_insertStr acc _ _ h)
      · simp only [Bool.not_eq_true] at hc
        simp only [hc, Bool.false_eq_true, if_false]
        exact keysUniqueB_initFold rest _ h

/-- The working record produced by the snapshot has unique keys. -/
theorem keysUniqueB_initFields (rows : List Row) :
    keysUniqueB (initFields rows) = true := by
  by_cases h : isSingleUnkeyed rows = true
  · cases rows with
    | nil => simp [isSingleUnkeyed] at h
    | cons r rest => simp [initFields, h, keysUniqueB, lookupStr]
  · simp only [Bool.not_eq_true] at h
    simp only [initFields, h, Bool.false_eq_true, if_false]
    exact keysUniqueB_initFold rows [] rfl

/-- C10: a node field whose original value is `null` (the modelled
image of `null`/`undefined`, via `String(value ?? "")`) has its
working text initialized to the empty string, and committing with
that field untouched stores the empty string as the field's value —
`JSON.parse ""` fails, so the literal-string fallback applies — rather
than preserving `null`. -/
theorem nullField_inits_empty_and_commits_empty_string
    (rows : List Row) (q : String) (r : Row) (base : JObj)
    (hmode : isSingleUnkeyed rows = false)
    (hlast : lastBindRow rows q = some r)
    (hnull : r.value = .null) :
    lookupStr (initFields rows) q = some "" ∧
    lookupJ (mergeFields base (initFields rows)) q = some (JVal.str "") ∧
    JVal.str "" ≠ JVal.null := by
  have hinit : initFields rows =
      rows.foldl
        (fun acc2 r2 =>
          if keyTruthy r2.key && !isCompositeT r2.rtype then
            insertStr acc2 (r2.key.getD "") (jsStringOrEmpty r2.value)
          else acc2)
        [] := by
    simp [initFields, hmode]
  have h1 : lookupStr (initFields rows) q = some "" := by
    rw [hinit, lookupStr_initFold rows [] q]
    simp [hlast, hnull, jsStringOrEmpty]
  have hu : keysUniqueB (initFields rows) = true := keysUniqueB_initFields rows
  have h2 := mergeFields_lookup_edited (initFields rows) base q "" hu h1
  refine ⟨h1, ?_, by simp⟩
  rw [h2]
  rfl

/-- Witness for C10 at a concrete input: in the two-field node
`{a: null, b: 3}` the snapshot binds `a` to `""` and an untouched
commit stores the literal empty string at `a`. -/
theorem nullField_inits_empty_and_commits_empty_string_witness :
    isSingleUnkeyed [(⟨some "a", .null, .tnull⟩ : Row),
      ⟨some "b", .num 3, .tnum⟩] = false ∧
    lastBindRow [(⟨some "a", .null, .tnull⟩ : Row), ⟨some "b", .num 3, .tnum⟩] "a" =
      some ⟨some "a", .null, .tnull⟩ ∧
    (Row.value ⟨some "a", .null, .tnull⟩ = .null) ∧
    (lookupStr (initFields [(⟨some "a", .null, .tnull⟩ : Row),
        ⟨some "b", .num 3, .tnum⟩]) "a" = some "" ∧
      lookupJ (mergeFields .nil (initFields [(⟨some "a", .null, .tnull⟩ : Row),
        ⟨some "b", .num 3, .tnum⟩])) "a" = some (JVal.str "") ∧
      JVal.str "" ≠ JVal.null) :=
  ⟨rfl, rfl, rfl,
    nullField_inits_empty_and_commits_empty_string
      [⟨some "a", .null, .tnull⟩, ⟨some "b", .num 3, .tnum⟩] "a"
      ⟨some "a", .null, .tnull⟩ .nil rfl rfl rfl⟩

/-! ### C7: the snapshot projection -/

/-- A truthy key is a present, non-empty string. -/
theorem keyTruthy_some (k : Option String) (h : keyTruthy k = true) :
    k = some (k.getD "") := by
  cases k with
  | none => simp [keyTruthy] at h
  | some s => rfl

/-- Every binding produced by the `normalizeNodeData` fold comes from a
scalar row with that truthy key and that value. -/
theorem lookupJ_buildFold_mem :
    (rows : List Row) → (acc : JObj) → (q : String) → (v : JVal) →
      lookupJ
        (rows.foldl
          (fun acc2 r =>
            if isCompositeT r.rtype then acc2
            else if keyTruthy r.key then insertJS acc2 (r.key.getD "") r.value
            else acc2)
          acc) q = some v →
      (∃ r, r ∈ rows ∧ r.key = some q ∧ isCompositeT r.rtype = false ∧ r.value = v) ∨
      lookupJ acc q = some v
  | [], acc, q, v, h => Or.inr h
  | r :: rest, acc, q, v, h => by
      rw [List.foldl_cons] at h
      rcases lookupJ_buildFold_mem rest _ q v h with hmem | hacc
      · obtain ⟨r2, hr2, hk, hc, hv⟩ := hmem
        exact Or.inl ⟨r2, List.mem_cons_of_mem r hr2, hk, hc, hv⟩
      · by_cases hcomp : isCompositeT r.rtype = true
        · rw [if_pos hcomp] at hacc
          exact Or.inr hacc
        · simp only [Bool.not_eq_true] at hcomp
          rw [if_neg (by simp [hcomp])] at hacc
          by_cases htr : keyTruthy r.key = true
          · rw [if_pos htr, lookupJ_insertJS] at hacc
            by_cases hkq : r.key.getD "" = q
            · rw [if_pos hkq] at hacc
              refine Or.inl ⟨r, List.mem_cons_self r rest, ?_, hcomp, Option.some.inj hacc⟩
              rw [keyTruthy_some r.key htr, hkq]
            · rw [if_neg hkq] at hacc
              exact Or.inr hacc
          · simp only [Bool.not_eq_true] at htr
            rw [if_neg (by simp [htr])] at hacc
            exact Or.inr hacc

/-- A binding present in the accumulator survives the fold. -/
theorem lookupJ_buildFold_persists :
    (rows : List Row) → (acc : JObj) → (q : String) →
      (lookupJ acc q).isSome = true →
      (lookupJ
        (rows.foldl
          (fun acc2 r =>
            if isCompositeT r.rtype then acc2
            else if keyTruthy r.key then insertJS acc2 (r.key.getD "") r.value
            else acc2)
          acc) q).isSome = true
  | [], acc, q, h => h
  | r :: rest, acc, q, h => by
      rw [List.foldl_cons]
      refine lookupJ_buildFold_persists rest _ q ?_
      by_cases hcomp : isCompositeT r.rtype = true
      · rw [if_pos hcomp]; exact h
      · simp only [Bool.not_eq_true] at hcomp
        rw [if_neg (by simp [hcomp])]
        by_cases htr : keyTruthy r.key = true
        · rw [if_pos htr, lookupJ_insertJS]
          by_cases hkq : r.key.getD "" = q
          · simp [hkq]
          · simp [hkq, h]
        · simp only [Bool.not_eq_true] at htr
          rw [if_neg (by simp [htr])]
          exact h

/-- Every scalar row with a truthy key contributes a binding to the
fold's result. -/
theorem lookupJ_buildFold_present :
    (rows : List Row) → (acc : JObj) → (r : Row) → r ∈ rows →
      keyTruthy r.key = true → isCompositeT r.rtype = false →
      (lookupJ
        (rows.foldl
          (fun acc2 r2 =>
            if isCompositeT r2.rtype then acc2
            else if keyTruthy r2.key then insertJS acc2 (r2.key.getD "") r2.value
            else acc2)
          acc) (r.key.getD "")).isSome = true
  | [], acc, r, hmem, _, _ => absurd hmem (List.not_mem_nil r)
  | r0 :: rest, acc, r, hmem, htr, hcomp => by
      rw [List.foldl_cons]
      rcases List.mem_cons.mp hmem with heq | hrest
      · subst heq
        refine lookupJ_buildFold_persists rest _ _ ?_
        rw [if_neg (by simp [hcomp]), if_pos htr, lookupJ_insertJS]
        simp
      · exact lookupJ_buildFold_present rest _ r hrest htr hcomp

/-- C7: the snapshot projection `normalizeNodeData` (in both variants
of the component) maps field rows casewise: empty rows give the empty
mapping; a single field without a key gives that field's value
(rendered by `JSON.stringify` in the field-mode variant and by string
interpolation in the whole-value variant); otherwise the serialized
mapping that binds each scalar field's truthy key to its value,
omitting every composite-typed field — each binding comes from a
scalar row and every scalar keyed row is bound.  As Lean functions the
projections are pure, so identical input gives identical output by
reflexivity. -/
theorem normalizeNodeData_cases :
    (normalizeNodeData [] = "\x7b\x7d" ∧ normalizeNodeData000 [] = "\x7b\x7d") ∧
    (∀ r : Row, keyTruthy r.key = false →
      normalizeNodeData [r] = pretty r.value ∧
      normalizeNodeData000 [r] = jsTemplate r.value) ∧
    (∀ rows : List Row, isSingleUnkeyed rows = false →
      normalizeNodeData rows = pretty (JVal.obj (buildObjJS rows)) ∧
      normalizeNodeData000 rows = pretty (JVal.obj (buildObjJS rows))) ∧
    (∀ (rows : List Row) (q : String) (v : JVal),
      lookupJ (buildObjJS rows) q = some v →
      ∃ r, r ∈ rows ∧ r.key = some q ∧ isCompositeT r.rtype = false ∧ r.value = v) ∧
    (∀ (rows : List Row) (r : Row), r ∈ rows → keyTruthy r.key = true →
      isCompositeT r.rtype = false →
      (lookupJ (buildObjJS rows) (r.key.getD "")).isSome = true) := by
  refine ⟨⟨rfl, rfl⟩, ?_, ?_, ?_, ?_⟩
  · intro r h
    constructor
    · simp [normalizeNodeData, h]
    · simp [normalizeNodeData000, h]
  · intro rows hmode
    cases rows with
    | nil => exact ⟨rfl, rfl⟩
    | cons r rest =>
        cases rest with
        | nil =>
            have htr : keyTruthy r.key = true := by
              simpa [isSingleUnkeyed, Bool.not_eq_false] using hmode
            exact ⟨by simp [normalizeNodeData, htr], by simp [normalizeNodeData000, htr]⟩
        | cons r2 rest2 => exact ⟨rfl, rfl⟩
  · intro rows q v h
    rcases lookupJ_buildFold_mem rows .nil q v h with hmem | habs
    · exact hmem
    · simp [lookupJ] at habs
  · intro rows r hmem htr hcomp
    exact lookupJ_buildFold_present rows .nil r hmem htr hcomp

/-- Witness for C7 at concrete inputs: a keyless scalar row, and a
mixed node whose array-typed row is omitted while its scalar row is
kept. -/
theorem normalizeNodeData_cases_witness :
    keyTruthy (Row.key ⟨none, .num 7, .tnum⟩) = false ∧
    normalizeNodeData [⟨none, .num 7, .tnum⟩] = pretty (JVal.num 7) ∧
    normalizeNodeData000 [⟨none, .num 7, .tnum⟩] = jsTemplate (JVal.num 7) ∧
    isSingleUnkeyed [(⟨some "a", .num 7, .tnum⟩ : Row),
      ⟨some "b", .arr .nil, .tarr⟩] = false ∧
    normalizeNodeData [(⟨some "a", .num 7, .tnum⟩ : Row), ⟨some "b", .arr .nil, .tarr⟩] =
      pretty (JVal.obj (buildObjJS [(⟨some "a", .num 7, .tnum⟩ : Row),
        ⟨some "b", .arr .nil, .tarr⟩])) ∧
    lookupJ (buildObjJS [(⟨some "a", .num 7, .tnum⟩ : Row),
      ⟨some "b", .arr .nil, .tarr⟩]) "b" = none :=
  ⟨rfl,
    (normalizeNodeData_cases.2.1 ⟨none, .num 7, .tnum⟩ rfl).1,
    (normalizeNodeData_cases.2.1 ⟨none, .num 7, .tnum⟩ rfl).2,
    rfl,
    (normalizeNodeData_cases.2.2.1
      [⟨some "a", .num 7, .tnum⟩, ⟨some "b", .arr .nil, .tarr⟩] rfl).1,
    rfl⟩

/-! ### C8: post-commit resynchronization -/

/-- When exactly one node's path matches, `find?` returns it. -/
theorem find?_matching :
    (nodes : List GNode) → (p : List Seg) → (n : GNode) →
      n ∈ nodes → n.path = some p →
      (∀ m, m ∈ nodes → m ≠ n → pathMatches m.path (some p) = false) →
      nodes.find? (fun m => pathMatches m.path (some p)) = some n
  | [], p, n, hmem, _, _ => absurd hmem (List.not_mem_nil n)
  | m0 :: rest, p, n, hmem, hpath, hoth => by
      by_cases hm0 : m0 = n
      · subst hm0
        have : pathMatches m0.path (some p) = true := by
          rw [hpath]
          simp [pathMatches]
        simp [List.find?, this]
      · have hfalse : pathMatches m0.path (some p) = false :=
          hoth m0 (List.mem_cons_self m0 rest) hm0
        have hrest : n ∈ rest := by
          rcases List.mem_cons.mp hmem with heq | hr
          · exact absurd heq.symm hm0
          · exact hr
        have ih := find?_matching rest p n hrest hpath
          (fun m hm hmn => hoth m (List.mem_cons_of_mem m0 hm) hmn)
        simp [List.find?, hfalse, ih]

/-- C8 (amended): after the rebuild, the node whose path is
structurally equal — element-wise list equality, not object identity —
to the captured path is selected; when no node's path matches,
`setSelectedNode` is never called, so the previous selection is left
in place (it is not cleared), and no error occurs. -/
theorem resyncSelect_behavior :
    (∀ (nodes : List GNode) (p : List Seg) (prev : Option GNode) (n : GNode),
      n ∈ nodes → n.path = some p →
      (∀ m, m ∈ nodes → m ≠ n → pathMatches m.path (some p) = false) →
      resyncSelect nodes (some p) prev = some n) ∧
    (∀ (nodes : List GNode) (captured : Option (List Seg)) (prev : Option GNode),
      (∀ m, m ∈ nodes → pathMatches m.path captured = false) →
      resyncSelect nodes captured prev = prev) := by
  constructor
  · intro nodes p prev n hmem hpath hoth
    have := find?_matching nodes p n hmem hpath hoth
    simp [resyncSelect, this]
  · intro nodes captured prev h
    have hnone : nodes.find? (fun m => pathMatches m.path captured) = none :=
      List.find?_eq_none.mpr (fun m hm => by simp [h m hm])
    simp [resyncSelect, hnone]

/-- A stale previously selected node. -/
def exPrevNode : GNode := ⟨7, some [Seg.key "z"], []⟩

/-- A rebuilt node matching the captured path `["a"]`. -/
def exMatchNode : GNode := ⟨3, some [Seg.key "a"], []⟩

/-- Witness for C8 (amended) at concrete inputs: the single matching
node is selected; with no match the previous selection stays. -/
theorem resyncSelect_behavior_witness :
    (exMatchNode ∈ [exMatchNode] ∧ exMatchNode.path = some [Seg.key "a"] ∧
      resyncSelect [exMatchNode] (some [Seg.key "a"]) none = some exMatchNode) ∧
    ((∀ m, m ∈ [exPrevNode] → pathMatches m.path (some [Seg.key "a"]) = false) ∧
      resyncSelect [exPrevNode] (some [Seg.key "a"]) (some exPrevNode) = some exPrevNode) :=
  ⟨⟨List.mem_cons_self exMatchNode [], rfl,
      resyncSelect_behavior.1 [exMatchNode] [Seg.key "a"] none exMatchNode
        (List.mem_cons_self exMatchNode []) rfl
        (fun m hm hmn => by
          rcases List.mem_cons.mp hm with heq | habs
          · exact absurd heq hmn
          · exact absurd habs (List.not_mem_nil m))⟩,
    ⟨fun m hm => by
        rcases List.mem_cons.mp hm with heq | habs
        · rw [heq]; rfl
        · exact absurd habs (List.not_mem_nil m),
      resyncSelect_behavior.2 [exPrevNode] (some [Seg.key "a"]) (some exPrevNode)
        (fun m hm => by
          rcases List.mem_cons.mp hm with heq | habs
          · rw [heq]; rfl
          · exact absurd habs (List.not_mem_nil m))⟩⟩

/-- Counterexample to C8 as stated: with an empty rebuilt node list (no
node's path matches the captured path `["a"]`) and a stale previous
selection, the resynchronization step leaves the stale node selected —
the selection is not cleared. -/
theorem resyncSelect_c8_counterexample :
    resyncSelect [] (some [Seg.key "a"]) (some exPrevNode) = some exPrevNode ∧
    resyncSelect [] (some [Seg.key "a"]) (some exPrevNode) ≠ (none : Option GNode) :=
  ⟨rfl, by simp [resyncSelect]⟩

end JsonCrack
